import Mathlib

/-!
# Verification of the ARTIQ experiment scheduler specification

The repository ships the scheduler's unit tests (`artiq/test/scheduler.py`)
and the controller-manager frontend (`artiq/frontend/artiq_ctlmgr.py`); the
scheduler core (`artiq/master/scheduler.py`) itself is not part of the
source tree under verification.  The scheduler is therefore modelled from
the specification, as a deterministic transition system; the concrete shape
of the published mutation events (actions `"setitem"`/`"delitem"`, a `key`
field next to a `path` field) is pinned by `_get_basic_steps` in the test
file, which is part of the source tree.
-/

namespace ArtiqSched

/-- Run lifecycle statuses, from the spec's lifecycle
`pending → preparing → prepare_done → running → run_done → analyzing →
analyze_done → (removed)` and from the status strings expected by
`_get_basic_steps` in `artiq/test/scheduler.py`. -/
inductive Status where
  | pending
  | preparing
  | prepare_done
  | running
  | run_done
  | analyzing
  | analyze_done
deriving DecidableEq, Repr

/-- Job descriptor, from `_get_expid` in `artiq/test/scheduler.py`:
a file reference, an experiment (entry point) name and an argument
mapping.  The scheduler treats it as opaque. -/
structure Expid where
  file : String
  experiment : String
  arguments : List (String × String)
deriving DecidableEq, Repr

/-- The value stored for a run in the scheduler's registry, with exactly
the fields appearing in the insertion event of `_get_basic_steps`:
pipeline, status, priority, expid, due_date. -/
structure RunValue where
  pipeline : String
  status : Status
  priority : Int
  expid : Expid
  due_date : Option Int
deriving DecidableEq, Repr

/-- The key of a mutation event: a run id at the top level of the
registry, or a field name (such as `"status"`) inside one run's entry. -/
inductive EvKey where
  | ridKey (rid : Nat)
  | strKey (s : String)
deriving DecidableEq, Repr

/-- The value carried by a mutation event: a whole run entry for a
top-level insertion, or a single status for a field update. -/
inductive EvValue where
  | runVal (v : RunValue)
  | statusVal (s : Status)
deriving DecidableEq, Repr

/-- One Notifier mutation event, with the shape expected by
`_get_basic_steps` in `artiq/test/scheduler.py`: an action string
(`"setitem"` or `"delitem"`), the mutated key, the path from the root of
the registry to the container holding that key, and the new value
(absent for `"delitem"`). -/
structure Event where
  action : String
  key : EvKey
  path : List Nat
  value : Option EvValue
deriving DecidableEq, Repr

/-- The insertion event for a freshly submitted run
(first element of `_get_basic_steps`). -/
def insertEv (rid : Nat) (v : RunValue) : Event :=
  ⟨"setitem", .ridKey rid, [], some (.runVal v)⟩

/-- A status-update event for an existing run
(middle elements of `_get_basic_steps`). -/
def statusEv (rid : Nat) (s : Status) : Event :=
  ⟨"setitem", .strKey "status", [rid], some (.statusVal s)⟩

/-- The deletion event for a run (last element of `_get_basic_steps`). -/
def delEv (rid : Nat) : Event :=
  ⟨"delitem", .ridKey rid, [], none⟩

/-- The eight-event trace expected for one unpreempted run, mirroring
`_get_basic_steps(rid, expid)` in `artiq/test/scheduler.py`. -/
def basicSteps (rid : Nat) (expid : Expid) : List Event :=
  [insertEv rid ⟨"main", .pending, 0, expid, none⟩,
   statusEv rid .preparing,
   statusEv rid .prepare_done,
   statusEv rid .running,
   statusEv rid .run_done,
   statusEv rid .analyzing,
   statusEv rid .analyze_done,
   delEv rid]

/-! ## Association-list primitives

The registry is a Python dict keyed by run id; the set of pipeline
execution pipelines is keyed by pipeline name.  Both are modelled as
association lists with Python-dict semantics: updating an existing key
keeps its position, a new key is appended at the end, deletion removes
the key. -/

/-- Lookup in an association list (first matching key). -/
def lookA {κ ν : Type} [DecidableEq κ] (k : κ) : List (κ × ν) → Option ν
  | [] => none
  | (k', v) :: t => if k' = k then some v else lookA k t

/-- Python-dict `setitem`: replace the first binding of `k` in place, or
append a new binding at the end. -/
def setA {κ ν : Type} [DecidableEq κ] (k : κ) (v : ν) : List (κ × ν) → List (κ × ν)
  | [] => [(k, v)]
  | (k', v') :: t => if k' = k then (k, v) :: t else (k', v') :: setA k v t

/-- Python-dict `delitem`: remove the first binding of `k`. -/
def eraseA {κ ν : Type} [DecidableEq κ] (k : κ) : List (κ × ν) → List (κ × ν)
  | [] => []
  | (k', v') :: t => if k' = k then t else (k', v') :: eraseA k t

/-- Apply a function to the value bound to `k`, leaving other bindings
unchanged. -/
def mapA {κ ν : Type} [DecidableEq κ] (k : κ) (f : ν → ν) (l : List (κ × ν)) :
    List (κ × ν) :=
  l.map (fun p => if p.1 = k then (p.1, f p.2) else p)

/-- Replace a run value's status, keeping every other field. -/
def withStatus (v : RunValue) (s : Status) : RunValue :=
  { v with status := s }

/-- The registry: run id to run value, in insertion order. -/
abbrev Registry : Type := List (Nat × RunValue)

/-- Modelled from the spec: the effect of one Notifier mutation event on a
registry, defining the subscriber-side replay of the event stream
(missing source: the Notifier in `artiq/protocols/sync_struct.py` and its
use by `artiq/master/scheduler.py`).  A top-level `"setitem"` inserts or
replaces a run entry, a `"setitem"` of `"status"` under a run id rewrites
that run's status, a top-level `"delitem"` removes the run. -/
def applyEvent (reg : Registry) (e : Event) : Registry :=
  if e.action = "setitem" then
    match e.key, e.path, e.value with
    | .ridKey r, [], some (.runVal v) => setA r v reg
    | .strKey f, [r], some (.statusVal s) =>
        if f = "status" then mapA r (fun v => withStatus v s) reg else reg
    | _, _, _ => reg
  else if e.action = "delitem" then
    match e.key, e.path with
    | .ridKey r, [] => eraseA r reg
    | _, _ => reg
  else reg

/-- Replaying a full event stream into an empty registry. -/
def replay (evs : List Event) : Registry :=
  evs.foldl applyEvent []

/-! ## The scheduler transition system (modelled from the spec) -/

/-- Modelled from the spec: the position of an in-flight run inside its
pipeline manager's execution loop (missing source:
`artiq/master/scheduler.py`).  `running n` means the run phase is
executing with `n` pause checkpoints still ahead of it. -/
inductive RPhase where
  | preparing
  | prepare_done
  | running (pausesLeft : Nat)
  | run_done
  | analyzing
  | analyze_done
deriving DecidableEq, Repr

/-- The published status corresponding to an execution phase. -/
def phaseStatus : RPhase → Status
  | .preparing => .preparing
  | .prepare_done => .prepare_done
  | .running _ => .running
  | .run_done => .run_done
  | .analyzing => .analyzing
  | .analyze_done => .analyze_done

/-- Modelled from the spec: one entry of a pipeline manager's execution
stack (missing source: `artiq/master/scheduler.py`): the run id, its
phase, the total pause budget of its job body, and the cooperative
termination flag set by `cancel` on a non-pending run. -/
structure ActiveRun where
  rid : Nat
  phase : RPhase
  budget : Nat
  cancelReq : Bool
deriving DecidableEq, Repr

/-- Modelled from the spec: the whole scheduler state (missing source:
`artiq/master/scheduler.py`): the next run id to allocate, the current
time used for due-date gating, the registry published through the
Notifier, the job bodies (shallowly embedded as the number of pause
checkpoints their run phase performs), the per-pipeline execution
pipelines (head = the run currently driven; deeper entries are suspended
at a pause checkpoint), and the ordered log of published mutation
events. -/
structure MState where
  next_rid : Nat
  now : Int
  registry : Registry
  jobs : List (Nat × Nat)
  pipelines : List (String × List ActiveRun)
  log : List Event
deriving DecidableEq

/-- The scheduler as constructed by the tests: `Scheduler(n, handlers)`
starts with next run id `n`, an empty registry and no pipelines. -/
def initState (n : Nat) : MState :=
  { next_rid := n, now := 0, registry := [], jobs := [], pipelines := [], log := [] }

/-- Publish one mutation event: the registry is updated by exactly the
event that is appended to the log, in the same atomic step. -/
def emit (st : MState) (e : Event) : MState :=
  { st with registry := applyEvent st.registry e, log := st.log ++ [e] }

/-- The execution stack of a pipeline (empty if the pipeline was never
used). -/
def getStack (st : MState) (p : String) : List ActiveRun :=
  (lookA p st.pipelines).getD []

/-- Replace the execution stack of a pipeline. -/
def setStack (st : MState) (p : String) (s : List ActiveRun) : MState :=
  { st with pipelines := setA p s st.pipelines }

/-- Modelled from the spec: `submit(pipeline, expid, priority, due_date)`
(missing source: `artiq/master/scheduler.py`): allocate the next run id,
insert a pending run and publish the insertion. -/
def submitRun (st : MState) (p : String) (expid : Expid) (priority : Int)
    (due : Option Int) (pauses : Nat) : MState :=
  let rid := st.next_rid
  { emit st (insertEv rid ⟨p, .pending, priority, expid, due⟩) with
    next_rid := rid + 1, jobs := st.jobs ++ [(rid, pauses)] }

/-- Whether a run's due date has arrived. -/
def dueOK (now : Int) : Option Int → Bool
  | none => true
  | some t => decide (t ≤ now)

/-- Whether a run's priority clears the preemption floor (`none` for
plain selection, `some q` at a pause checkpoint of a run of priority
`q`, which only a strictly higher priority may preempt). -/
def floorOK (floor : Option Int) (priority : Int) : Bool :=
  match floor with
  | none => true
  | some q => decide (q < priority)

/-- Whether a registry entry is selectable for pipeline `p`: it belongs
to `p`, is pending, its due date (if any) has arrived, and it clears the
priority floor. -/
def eligible (st : MState) (p : String) (floor : Option Int) (v : RunValue) : Bool :=
  decide (v.pipeline = p) && decide (v.status = Status.pending) &&
    dueOK st.now v.due_date && floorOK floor v.priority

/-- Selection order: strictly higher priority wins, ties are broken by
the lowest run id (earliest submission). -/
def better (a b : Nat × RunValue) : Bool :=
  decide (b.2.priority < a.2.priority) ||
    (decide (a.2.priority = b.2.priority) && decide (a.1 < b.1))

/-- One fold step of the selection scan over the registry. -/
def selStep (st : MState) (p : String) (floor : Option Int)
    (acc : Option (Nat × RunValue)) (x : Nat × RunValue) : Option (Nat × RunValue) :=
  if eligible st p floor x.2 then
    match acc with
    | none => some x
    | some y => if better x y then some x else some y
  else acc

/-- Modelled from the spec: selection (missing source:
`artiq/master/scheduler.py`): among pending runs of pipeline `p` whose
due date has arrived and whose priority clears `floor`, pick the highest
priority, ties broken by lowest run id. -/
def selectBest (st : MState) (p : String) (floor : Option Int) :
    Option (Nat × RunValue) :=
  st.registry.foldl (selStep st p floor) none

/-- The stack entry created when a pending run is selected: its pause
budget is read from its job body. -/
def mkEntry (st : MState) (rid : Nat) : ActiveRun :=
  ⟨rid, .preparing, (lookA rid st.jobs).getD 0, false⟩

/-- Start driving a selected pending run: publish its `preparing` status
and push it onto its pipeline's execution stack. -/
def startRun (st : MState) (p : String) (rid : Nat) : MState :=
  setStack (emit st (statusEv rid .preparing)) p (mkEntry st rid :: getStack st p)

/-- Advance the run at the top of the stack to its next phase, publishing
the corresponding status. -/
def advanceTop (st : MState) (p : String) (top : ActiveRun)
    (rest : List ActiveRun) (φ : RPhase) : MState :=
  setStack (emit st (statusEv top.rid (phaseStatus φ))) p
    ({ top with phase := φ } :: rest)

/-- Remove the finished (or cancelled) run at the top of the stack:
publish its deletion and pop it. -/
def finishTop (st : MState) (p : String) (top : ActiveRun)
    (rest : List ActiveRun) : MState :=
  setStack (emit st (delEv top.rid)) p rest

/-- The priority of a run currently in the registry (`0` if absent,
which cannot happen in reachable states). -/
def priorityOf (st : MState) (rid : Nat) : Int :=
  match lookA rid st.registry with
  | some v => v.priority
  | none => 0

/-- Modelled from the spec: one step of a pipeline manager's control loop
(missing source: `artiq/master/scheduler.py`).  With an empty stack it
selects the best pending run; with a cancelled run on top it unwinds it
directly to removal; otherwise it drives the top run one phase forward.
At a pause checkpoint (`running (n+1)`) it re-runs selection with the
current run's priority as floor: a strictly higher-priority pending run
is started on top of the suspended one (which keeps its `running`
status and its checkpoint, realizing cooperative preemption), and with
no such run the checkpoint returns immediately, consuming one pause. -/
def tick (st : MState) (p : String) : MState :=
  match getStack st p with
  | [] =>
    match selectBest st p none with
    | none => st
    | some rv => startRun st p rv.1
  | top :: rest =>
    if top.cancelReq then finishTop st p top rest
    else
      match top.phase with
      | .preparing => advanceTop st p top rest .prepare_done
      | .prepare_done => advanceTop st p top rest (.running top.budget)
      | .running 0 => advanceTop st p top rest .run_done
      | .running (n + 1) =>
        match selectBest st p (some (priorityOf st top.rid)) with
        | some rv => startRun st p rv.1
        | none => setStack st p ({ top with phase := .running n } :: rest)
      | .run_done => advanceTop st p top rest .analyzing
      | .analyzing => advanceTop st p top rest .analyze_done
      | .analyze_done => finishTop st p top rest

/-- The error raised by `cancel` on an unknown run id. -/
inductive SchedulerError where
  | UnknownRunId
deriving DecidableEq, Repr

/-- Set the cooperative termination flag on every stack entry of run
`rid` (there is at most one in reachable states). -/
def setFlags (rid : Nat) (ps : List (String × List ActiveRun)) :
    List (String × List ActiveRun) :=
  ps.map (fun s =>
    (s.1, s.2.map (fun a =>
      if a.rid = rid then { a with cancelReq := true } else a)))

/-- Modelled from the spec: `cancel(rid)` (missing source:
`artiq/master/scheduler.py`): fails with `UnknownRunId` if the id is
absent; deletes a pending run immediately, publishing only the deletion;
for a non-pending run, sets the cooperative termination flag observed by
its pipeline manager. -/
def cancelRun (st : MState) (rid : Nat) : Except SchedulerError MState :=
  match lookA rid st.registry with
  | none => .error .UnknownRunId
  | some v =>
    if v.status = Status.pending then .ok (emit st (delEv rid))
    else .ok { st with pipelines := setFlags rid st.pipelines }

/-- The observable actions driving the model: external submissions and
cancellations, one internal step of a pipeline manager, and the passage
of time (for due-date gating). -/
inductive Act where
  | submit (p : String) (expid : Expid) (priority : Int) (due : Option Int)
      (pauses : Nat)
  | cancel (rid : Nat)
  | tick (p : String)
  | advance (t : Int)
deriving DecidableEq, Repr

/-- One labelled step of the whole system. -/
def doStep (st : MState) (a : Act) : MState :=
  match a with
  | .submit p e pr d k => submitRun st p e pr d k
  | .cancel rid =>
    match cancelRun st rid with
    | .ok st' => st'
    | .error _ => st
  | .tick p => tick st p
  | .advance t => { st with now := t }

/-- Execute a sequence of actions. -/
def execAll (st : MState) (acts : List Act) : MState :=
  acts.foldl doStep st

/-- All intermediate states of an execution, initial state included. -/
def statesOf (st : MState) (acts : List Act) : List MState :=
  acts.scanl doStep st

/-! ## Concrete scenarios

Scenario A (`test_steps`): one run whose job body does nothing.
Scenario B (`test_pause`): a priority −99 run whose job loops calling
`pause()`; once it is running, a priority 0 run is submitted to the same
pipeline.  The intermediate states are spelled out so that each step is
a cheap definitional equality. -/

/-- The job descriptor of `EmptyExperiment` in `artiq/test/scheduler.py`. -/
def exEmpty : Expid := ⟨"artiq/test/scheduler.py", "EmptyExperiment", []⟩

/-- The job descriptor of `BackgroundExperiment` in
`artiq/test/scheduler.py`. -/
def exBg : Expid := ⟨"artiq/test/scheduler.py", "BackgroundExperiment", []⟩

/-- Scenario A: submit one empty job to pipeline `"main"`, then let the
pipeline manager run (seven steps drive the run through its whole
lifecycle, any further steps find the pipeline idle). -/
def scnA (expid : Expid) (k : Nat) : List Act :=
  Act.submit "main" expid 0 none 0 ::
    (List.replicate 7 (Act.tick "main") ++ List.replicate k (Act.tick "main"))

/-- Scenario A, state after the submission. -/
def stateA1 (expid : Expid) : MState :=
  ⟨1, 0, [(0, ⟨"main", .pending, 0, expid, none⟩)], [(0, 0)], [],
    (basicSteps 0 expid).take 1⟩

/-- Scenario A, state after the run is selected and set `preparing`. -/
def stateA2 (expid : Expid) : MState :=
  ⟨1, 0, [(0, ⟨"main", .preparing, 0, expid, none⟩)], [(0, 0)],
    [("main", [⟨0, .preparing, 0, false⟩])], (basicSteps 0 expid).take 2⟩

/-- Scenario A, state after `prepare_done`. -/
def stateA3 (expid : Expid) : MState :=
  ⟨1, 0, [(0, ⟨"main", .prepare_done, 0, expid, none⟩)], [(0, 0)],
    [("main", [⟨0, .prepare_done, 0, false⟩])], (basicSteps 0 expid).take 3⟩

/-- Scenario A, state after `running` (the empty job has no pause
checkpoints). -/
def stateA4 (expid : Expid) : MState :=
  ⟨1, 0, [(0, ⟨"main", .running, 0, expid, none⟩)], [(0, 0)],
    [("main", [⟨0, .running 0, 0, false⟩])], (basicSteps 0 expid).take 4⟩

/-- Scenario A, state after `run_done`. -/
def stateA5 (expid : Expid) : MState :=
  ⟨1, 0, [(0, ⟨"main", .run_done, 0, expid, none⟩)], [(0, 0)],
    [("main", [⟨0, .run_done, 0, false⟩])], (basicSteps 0 expid).take 5⟩

/-- Scenario A, state after `analyzing`. -/
def stateA6 (expid : Expid) : MState :=
  ⟨1, 0, [(0, ⟨"main", .analyzing, 0, expid, none⟩)], [(0, 0)],
    [("main", [⟨0, .analyzing, 0, false⟩])], (basicSteps 0 expid).take 6⟩

/-- Scenario A, state after `analyze_done`. -/
def stateA7 (expid : Expid) : MState :=
  ⟨1, 0, [(0, ⟨"main", .analyze_done, 0, expid, none⟩)], [(0, 0)],
    [("main", [⟨0, .analyze_done, 0, false⟩])], (basicSteps 0 expid).take 7⟩

/-- Scenario A, final state: the run has been deleted and the pipeline
is idle. -/
def stateA8 (expid : Expid) : MState :=
  ⟨1, 0, [], [(0, 0)], [("main", [])], basicSteps 0 expid⟩

/-- Scenario B: submit a priority −99 background job with `m + 1` pause
checkpoints, drive it to `running` (three steps), submit a priority 0
empty job to the same pipeline, then let the pipeline manager run: its
next step hits the background run's pause checkpoint and starts the
higher-priority run, which is driven through its whole lifecycle
(further seven steps). -/
def scnB (eb ef : Expid) (m : Nat) : List Act :=
  [Act.submit "main" eb (-99) none (m + 1), Act.tick "main", Act.tick "main",
   Act.tick "main", Act.submit "main" ef 0 none 0, Act.tick "main",
   Act.tick "main", Act.tick "main", Act.tick "main", Act.tick "main",
   Act.tick "main", Act.tick "main"]

/-- The four events published for the background run before the
higher-priority submission. -/
def bgSteps (eb : Expid) : List Event :=
  [insertEv 0 ⟨"main", .pending, -99, eb, none⟩,
   statusEv 0 .preparing, statusEv 0 .prepare_done, statusEv 0 .running]

/-- The background run's stack entry while it sits inside its pause
checkpoint: still `m + 1` checkpoints ahead, none consumed. -/
def bgEntry (m : Nat) : ActiveRun := ⟨0, .running (m + 1), m + 1, false⟩

/-- Scenario B, state after the background submission. -/
def stateB1 (eb : Expid) (m : Nat) : MState :=
  ⟨1, 0, [(0, ⟨"main", .pending, -99, eb, none⟩)], [(0, m + 1)], [],
    (bgSteps eb).take 1⟩

/-- Scenario B, background run selected and `preparing`. -/
def stateB2 (eb : Expid) (m : Nat) : MState :=
  ⟨1, 0, [(0, ⟨"main", .preparing, -99, eb, none⟩)], [(0, m + 1)],
    [("main", [⟨0, .preparing, m + 1, false⟩])], (bgSteps eb).take 2⟩

/-- Scenario B, background run `prepare_done`. -/
def stateB3 (eb : Expid) (m : Nat) : MState :=
  ⟨1, 0, [(0, ⟨"main", .prepare_done, -99, eb, none⟩)], [(0, m + 1)],
    [("main", [⟨0, .prepare_done, m + 1, false⟩])], (bgSteps eb).take 3⟩

/-- Scenario B, background run `running`, about to hit its first pause
checkpoint. -/
def stateB4 (eb : Expid) (m : Nat) : MState :=
  ⟨1, 0, [(0, ⟨"main", .running, -99, eb, none⟩)], [(0, m + 1)],
    [("main", [bgEntry m])], bgSteps eb⟩

/-- Scenario B, after the priority 0 submission. -/
def stateB5 (eb ef : Expid) (m : Nat) : MState :=
  ⟨2, 0, [(0, ⟨"main", .running, -99, eb, none⟩),
          (1, ⟨"main", .pending, 0, ef, none⟩)], [(0, m + 1), (1, 0)],
    [("main", [bgEntry m])], bgSteps eb ++ (basicSteps 1 ef).take 1⟩

/-- Scenario B, the background run's pause checkpoint starts the
higher-priority run (`preparing`); the background run stays suspended
at its checkpoint with status `running`. -/
def stateB6 (eb ef : Expid) (m : Nat) : MState :=
  ⟨2, 0, [(0, ⟨"main", .running, -99, eb, none⟩),
          (1, ⟨"main", .preparing, 0, ef, none⟩)], [(0, m + 1), (1, 0)],
    [("main", [⟨1, .preparing, 0, false⟩, bgEntry m])],
    bgSteps eb ++ (basicSteps 1 ef).take 2⟩

/-- Scenario B, higher-priority run `prepare_done`. -/
def stateB7 (eb ef : Expid) (m : Nat) : MState :=
  ⟨2, 0, [(0, ⟨"main", .running, -99, eb, none⟩),
          (1, ⟨"main", .prepare_done, 0, ef, none⟩)], [(0, m + 1), (1, 0)],
    [("main", [⟨1, .prepare_done, 0, false⟩, bgEntry m])],
    bgSteps eb ++ (basicSteps 1 ef).take 3⟩

/-- Scenario B, higher-priority run `running`: two runs of pipeline
`"main"` now both have status `running`. -/
def stateB8 (eb ef : Expid) (m : Nat) : MState :=
  ⟨2, 0, [(0, ⟨"main", .running, -99, eb, none⟩),
          (1, ⟨"main", .running, 0, ef, none⟩)], [(0, m + 1), (1, 0)],
    [("main", [⟨1, .running 0, 0, false⟩, bgEntry m])],
    bgSteps eb ++ (basicSteps 1 ef).take 4⟩

/-- Scenario B, higher-priority run `run_done`. -/
def stateB9 (eb ef : Expid) (m : Nat) : MState :=
  ⟨2, 0, [(0, ⟨"main", .running, -99, eb, none⟩),
          (1, ⟨"main", .run_done, 0, ef, none⟩)], [(0, m + 1), (1, 0)],
    [("main", [⟨1, .run_done, 0, false⟩, bgEntry m])],
    bgSteps eb ++ (basicSteps 1 ef).take 5⟩

/-- Scenario B, higher-priority run `analyzing`. -/
def stateB10 (eb ef : Expid) (m : Nat) : MState :=
  ⟨2, 0, [(0, ⟨"main", .running, -99, eb, none⟩),
          (1, ⟨"main", .analyzing, 0, ef, none⟩)], [(0, m + 1), (1, 0)],
    [("main", [⟨1, .analyzing, 0, false⟩, bgEntry m])],
    bgSteps eb ++ (basicSteps 1 ef).take 6⟩

/-- Scenario B, higher-priority run `analyze_done`. -/
def stateB11 (eb ef : Expid) (m : Nat) : MState :=
  ⟨2, 0, [(0, ⟨"main", .running, -99, eb, none⟩),
          (1, ⟨"main", .analyze_done, 0, ef, none⟩)], [(0, m + 1), (1, 0)],
    [("main", [⟨1, .analyze_done, 0, false⟩, bgEntry m])],
    bgSteps eb ++ (basicSteps 1 ef).take 7⟩

/-- Scenario B, final state: the higher-priority run has been deleted;
the background run is still suspended at its first pause checkpoint
with status `running`. -/
def stateB12 (eb ef : Expid) (m : Nat) : MState :=
  ⟨2, 0, [(0, ⟨"main", .running, -99, eb, none⟩)], [(0, m + 1), (1, 0)],
    [("main", [bgEntry m])], bgSteps eb ++ basicSteps 1 ef⟩


/-- The published status of a run, as an observer of the registry sees
it (`none` once the run has been deleted or before it was submitted). -/
def statusOfRun (st : MState) (rid : Nat) : Option Status :=
  (lookA rid st.registry).map RunValue.status

/-- The pipeline of a run currently in the registry. -/
def pipelineOfRun (st : MState) (rid : Nat) : Option String :=
  (lookA rid st.registry).map RunValue.pipeline


/-- The run ids returned by the successive `submit` calls of an action
sequence (a submission returns the `next_rid` of the state it acts on). -/
def ridsOf : MState → List Act → List Nat
  | _, [] => []
  | st, a :: acts =>
    match a with
    | .submit _ _ _ _ _ => st.next_rid :: ridsOf (doStep st a) acts
    | _ => ridsOf (doStep st a) acts

/-- The number of `submit` calls in an action sequence. -/
def numSubmits : List Act → Nat
  | [] => 0
  | a :: acts =>
    (match a with | .submit _ _ _ _ _ => 1 | _ => 0) + numSubmits acts

/-- The shape every published mutation event has, read off
`_get_basic_steps`: action `"setitem"` with a value, keyed either by a
run id at the root or by the field `"status"` under one run id; or
action `"delitem"` with no value, keyed by a run id at the root. -/
def goodShape (e : Event) : Prop :=
  (e.action = "setitem" ∧ e.value.isSome = true ∧
    ((e.path = [] ∧ ∃ r, e.key = EvKey.ridKey r) ∨
     (∃ r, e.path = [r] ∧ e.key = EvKey.strKey "status")))
  ∨ (e.action = "delitem" ∧ e.value = none ∧ e.path = [] ∧
     ∃ r, e.key = EvKey.ridKey r)


/-! ## The controller-manager frontend (`artiq/frontend/artiq_ctlmgr.py`) -/

/-- The `CtlMgrRPC` class defined inside `main()` of
`artiq/frontend/artiq_ctlmgr.py`: its only attribute is `retry_now`,
bound to `ctlmgr.retry_now`.  These are the remote procedures the
controller manager itself exposes. -/
def ctlMgrRPCMethods : List String := ["retry_now"]

/-- The RPC server constructed in `main()`:
`Server({"ctlmgr": rpc_target}, builtin_terminate=True)` — one target
named `"ctlmgr"` carrying the `CtlMgrRPC` methods, plus the transport's
built-in `terminate`. -/
structure RpcServerCfg where
  targets : List (String × List String)
  builtin_terminate : Bool
deriving DecidableEq, Repr

/-- The server wiring of `main()` in `artiq/frontend/artiq_ctlmgr.py`. -/
def ctlmgrServer : RpcServerCfg :=
  ⟨[("ctlmgr", ctlMgrRPCMethods)], true⟩

/-- The constructor arguments of `ControllerManager(args.server,
args.port_notify, args.retry_master)` in `main()`: a host, a
notification port to subscribe on, and a retry interval — network
endpoints only, no shared in-process state. -/
structure CtlMgrWiring where
  server_host : String
  notify_port : Nat
  retry_master_default : Int
deriving DecidableEq, Repr

/-- The controller manager's master-facing wiring, from the defaults of
`get_argparser()` and the call in `main()`: it subscribes on the notify
port (default 3250) of the master host (default `"::1"`). -/
def ctlmgrWiring : CtlMgrWiring := ⟨"::1", 3250, 5⟩


/-! ## Per-run trace shape and the reachability invariant -/

/-- The run a mutation event concerns: the single path component of a
status update, or the run-id key of a top-level insertion/deletion. -/
def eRid (e : Event) : Option Nat :=
  match e.path with
  | [r] => some r
  | [] =>
    match e.key with
    | .ridKey r => some r
    | .strKey _ => none
  | _ => none

/-- The subsequence of the log concerning one run. -/
def eventsFor (rid : Nat) (log : List Event) : List Event :=
  log.filter (fun e => decide (eRid e = some rid))

/-- The status updates published for a run that has advanced to status
`s`: the prefix of the lifecycle after `pending`, up to and including
`s`. -/
def upTo : Status → List Status
  | .pending => []
  | .preparing => [.preparing]
  | .prepare_done => [.preparing, .prepare_done]
  | .running => [.preparing, .prepare_done, .running]
  | .run_done => [.preparing, .prepare_done, .running, .run_done]
  | .analyzing => [.preparing, .prepare_done, .running, .run_done, .analyzing]
  | .analyze_done =>
    [.preparing, .prepare_done, .running, .run_done, .analyzing, .analyze_done]

/-- The events published for a live run of current status `s` that was
inserted with value `v`: the insertion followed by the status updates up
to `s`. -/
def liveTrace (rid : Nat) (v : RunValue) (s : Status) : List Event :=
  insertEv rid v :: (upTo s).map (statusEv rid)

/-- C5's shape: a run's published events are empty, or an insertion with
a pending value followed by a contiguous prefix of the status lifecycle,
optionally closed by the run's deletion (and nothing after it). -/
def TraceShape (rid : Nat) (log : List Event) : Prop :=
  eventsFor rid log = []
  ∨ ∃ v s, v.status = Status.pending ∧
      (eventsFor rid log = liveTrace rid v s
       ∨ eventsFor rid log = liveTrace rid v s ++ [delEv rid])

/-- The amended single-execution discipline of C3: every run with
published status `running` sits on its pipeline's execution stack, and
every stack entry below the head is suspended at a pause checkpoint
(so only the head makes progress). -/
def StackDiscipline (st : MState) : Prop :=
  (∀ rid v, lookA rid st.registry = some v → v.status = Status.running →
    rid ∈ (getStack st v.pipeline).map ActiveRun.rid)
  ∧ ∀ p, ∀ e ∈ (getStack st p).tail, ∃ k, e.phase = RPhase.running (k + 1)

/-- The reachability invariant tying together the registry, the
per-pipeline execution stacks and the published event log. -/
structure Inv (st : MState) : Prop where
  regKeys : (st.registry.map Prod.fst).Nodup
  fresh : ∀ rid, st.next_rid ≤ rid →
    lookA rid st.registry = none ∧ eventsFor rid st.log = []
  coher : ∀ p, ∀ e ∈ getStack st p,
    ∃ v, lookA e.rid st.registry = some v ∧ v.pipeline = p ∧
      v.status = phaseStatus e.phase
  pipeNodup : ∀ p, ((getStack st p).map ActiveRun.rid).Nodup
  onStack : ∀ rid v, lookA rid st.registry = some v →
    v.status ≠ Status.pending →
    rid ∈ (getStack st v.pipeline).map ActiveRun.rid
  tails : ∀ p, ∀ e ∈ (getStack st p).tail,
    ∃ k, e.phase = RPhase.running (k + 1)
  trace : ∀ rid v, lookA rid st.registry = some v →
    ∃ v₀, v₀.status = Status.pending ∧ withStatus v₀ v.status = v ∧
      eventsFor rid st.log = liveTrace rid v₀ v.status
  traceGone : ∀ rid, lookA rid st.registry = none →
    eventsFor rid st.log = []
    ∨ ∃ v s, v.status = Status.pending ∧
        eventsFor rid st.log = liveTrace rid v s ++ [delEv rid]

theorem stepA1 (expid : Expid) :
    doStep (initState 0) (Act.submit "main" expid 0 none 0) = stateA1 expid := rfl

theorem stepA2 (expid : Expid) :
    doStep (stateA1 expid) (Act.tick "main") = stateA2 expid := rfl

theorem stepA3 (expid : Expid) :
    doStep (stateA2 expid) (Act.tick "main") = stateA3 expid := rfl

theorem stepA4 (expid : Expid) :
    doStep (stateA3 expid) (Act.tick "main") = stateA4 expid := rfl

theorem stepA5 (expid : Expid) :
    doStep (stateA4 expid) (Act.tick "main") = stateA5 expid := rfl

theorem stepA6 (expid : Expid) :
    doStep (stateA5 expid) (Act.tick "main") = stateA6 expid := rfl

theorem stepA7 (expid : Expid) :
    doStep (stateA6 expid) (Act.tick "main") = stateA7 expid := rfl

theorem stepA8 (expid : Expid) :
    doStep (stateA7 expid) (Act.tick "main") = stateA8 expid := rfl

/-- Once scenario A has completed, further pipeline steps are no-ops. -/
theorem stepA_idle (expid : Expid) :
    doStep (stateA8 expid) (Act.tick "main") = stateA8 expid := rfl

theorem execAll_idleA (expid : Expid) :
    ∀ k, execAll (stateA8 expid) (List.replicate k (Act.tick "main")) = stateA8 expid
  | 0 => rfl
  | k + 1 => by
    rw [List.replicate_succ]
    show execAll (doStep (stateA8 expid) (Act.tick "main"))
      (List.replicate k (Act.tick "main")) = stateA8 expid
    rw [stepA_idle]
    exact execAll_idleA expid k

/-- Scenario A reaches `stateA8` whatever the number of extra idle
steps. -/
theorem execAll_scnA (expid : Expid) (k : Nat) :
    execAll (initState 0) (scnA expid k) = stateA8 expid := by
  show execAll (initState 0)
    ((Act.submit "main" expid 0 none 0 :: List.replicate 7 (Act.tick "main")) ++
      List.replicate k (Act.tick "main")) = stateA8 expid
  rw [execAll, List.foldl_append]
  show execAll (execAll (initState 0)
    (Act.submit "main" expid 0 none 0 :: List.replicate 7 (Act.tick "main")))
    (List.replicate k (Act.tick "main")) = stateA8 expid
  have h : execAll (initState 0)
      (Act.submit "main" expid 0 none 0 :: List.replicate 7 (Act.tick "main"))
      = stateA8 expid := by
    show execAll (initState 0) [Act.submit "main" expid 0 none 0,
      Act.tick "main", Act.tick "main", Act.tick "main", Act.tick "main",
      Act.tick "main", Act.tick "main", Act.tick "main"] = stateA8 expid
    simp only [execAll, List.foldl, stepA1, stepA2, stepA3, stepA4, stepA5,
      stepA6, stepA7, stepA8]
  rw [h, execAll_idleA]

theorem stepB1 (eb : Expid) (m : Nat) :
    doStep (initState 0) (Act.submit "main" eb (-99) none (m + 1))
    = stateB1 eb m := rfl

theorem stepB2 (eb : Expid) (m : Nat) :
    doStep (stateB1 eb m) (Act.tick "main") = stateB2 eb m := rfl

theorem stepB3 (eb : Expid) (m : Nat) :
    doStep (stateB2 eb m) (Act.tick "main") = stateB3 eb m := rfl

theorem stepB4 (eb : Expid) (m : Nat) :
    doStep (stateB3 eb m) (Act.tick "main") = stateB4 eb m := rfl

theorem stepB5 (eb ef : Expid) (m : Nat) :
    doStep (stateB4 eb m) (Act.submit "main" ef 0 none 0) = stateB5 eb ef m := rfl

theorem stepB6 (eb ef : Expid) (m : Nat) :
    doStep (stateB5 eb ef m) (Act.tick "main") = stateB6 eb ef m := rfl

theorem stepB7 (eb ef : Expid) (m : Nat) :
    doStep (stateB6 eb ef m) (Act.tick "main") = stateB7 eb ef m := rfl

theorem stepB8 (eb ef : Expid) (m : Nat) :
    doStep (stateB7 eb ef m) (Act.tick "main") = stateB8 eb ef m := rfl

theorem stepB9 (eb ef : Expid) (m : Nat) :
    doStep (stateB8 eb ef m) (Act.tick "main") = stateB9 eb ef m := rfl

theorem stepB10 (eb ef : Expid) (m : Nat) :
    doStep (stateB9 eb ef m) (Act.tick "main") = stateB10 eb ef m := rfl

theorem stepB11 (eb ef : Expid) (m : Nat) :
    doStep (stateB10 eb ef m) (Act.tick "main") = stateB11 eb ef m := rfl

theorem stepB12 (eb ef : Expid) (m : Nat) :
    doStep (stateB11 eb ef m) (Act.tick "main") = stateB12 eb ef m := rfl

/-- The full list of states traversed by scenario B. -/
theorem statesOf_scnB (eb ef : Expid) (m : Nat) :
    statesOf (initState 0) (scnB eb ef m)
    = [initState 0, stateB1 eb m, stateB2 eb m, stateB3 eb m, stateB4 eb m,
       stateB5 eb ef m, stateB6 eb ef m, stateB7 eb ef m, stateB8 eb ef m,
       stateB9 eb ef m, stateB10 eb ef m, stateB11 eb ef m, stateB12 eb ef m] := by
  simp only [statesOf, scnB, List.scanl, stepB1, stepB2, stepB3, stepB4, stepB5,
    stepB6, stepB7, stepB8, stepB9, stepB10, stepB11, stepB12]

/-- Scenario B ends in `stateB12`. -/
theorem execAll_scnB (eb ef : Expid) (m : Nat) :
    execAll (initState 0) (scnB eb ef m) = stateB12 eb ef m := by
  simp only [execAll, scnB, List.foldl, stepB1, stepB2, stepB3, stepB4, stepB5,
    stepB6, stepB7, stepB8, stepB9, stepB10, stepB11, stepB12]

/-! ## Claim theorems -/

/-- C1: for a scheduler started fresh, submitting one run (pipeline
`"main"`, priority 0, no due date) whose job body does nothing produces
exactly the eight-event trace of `_get_basic_steps`: insertion with
status `pending`, the six status updates `preparing` through
`analyze_done`, then deletion, in that order and with no other events —
however many further steps the pipeline manager takes. -/
theorem scenarioA_basic_steps (expid : Expid) (k : Nat) :
    (execAll (initState 0) (scnA expid k)).log = basicSteps 0 expid := by
  rw [execAll_scnA]; rfl

/-- C2: in scenario B, the priority 0 run submitted while the priority
−99 run sits at a pause checkpoint traverses its complete eight-event
lifecycle trace before that pause call returns (the background run is
still suspended at its checkpoint, with all of its `m + 1` checkpoints
unconsumed, after the high-priority run has been deleted), and the
background run's published status remains `running` throughout. -/
theorem scenarioB_pause_preemption (eb ef : Expid) (m : Nat) :
    (execAll (initState 0) (scnB eb ef m)).log = bgSteps eb ++ basicSteps 1 ef
    ∧ ((statesOf (initState 0) (scnB eb ef m)).drop 5).all
        (fun s => decide (statusOfRun s 0 = some Status.running)) = true
    ∧ getStack (execAll (initState 0) (scnB eb ef m)) "main" = [bgEntry m] := by
  refine ⟨?_, ?_, ?_⟩
  · rw [execAll_scnB]; rfl
  · rw [statesOf_scnB]; rfl
  · rw [execAll_scnB]; rfl

/-- C3 fails on the model: in the reachable state of scenario B where
the preempting run has just been set `running`, both run 0 and run 1
belong to pipeline `"main"` and both have status `running`
simultaneously. -/
theorem two_running_counterexample :
    statusOfRun (execAll (initState 0) ((scnB exBg exEmpty 4).take 8)) 0
        = some Status.running
    ∧ statusOfRun (execAll (initState 0) ((scnB exBg exEmpty 4).take 8)) 1
        = some Status.running
    ∧ pipelineOfRun (execAll (initState 0) ((scnB exBg exEmpty 4).take 8)) 0
        = some "main"
    ∧ pipelineOfRun (execAll (initState 0) ((scnB exBg exEmpty 4).take 8)) 1
        = some "main" := by
  refine ⟨rfl, rfl, rfl, rfl⟩

/-! ## Rewrite lemmas for `cancel` -/

/-- A `cancel` of an absent run id fails with `UnknownRunId`. -/
theorem cancelRun_none (st : MState) (rid : Nat)
    (h : lookA rid st.registry = none) :
    cancelRun st rid = .error .UnknownRunId := by
  unfold cancelRun; rw [h]

/-- A `cancel` of a pending run publishes exactly its deletion. -/
theorem cancelRun_pending (st : MState) (rid : Nat) (v : RunValue)
    (h : lookA rid st.registry = some v) (hp : v.status = Status.pending) :
    cancelRun st rid = .ok (emit st (delEv rid)) := by
  unfold cancelRun; simp only [h]; rw [if_pos hp]

/-- A `cancel` of a non-pending run only sets termination flags. -/
theorem cancelRun_active (st : MState) (rid : Nat) (v : RunValue)
    (h : lookA rid st.registry = some v) (hp : ¬v.status = Status.pending) :
    cancelRun st rid = .ok { st with pipelines := setFlags rid st.pipelines } := by
  unfold cancelRun; simp only [h]; rw [if_neg hp]

/-- A failed `cancel` leaves the state untouched. -/
theorem doStep_cancel_none (st : MState) (rid : Nat)
    (h : lookA rid st.registry = none) :
    doStep st (.cancel rid) = st := by
  show (match cancelRun st rid with | .ok st' => st' | .error _ => st) = st
  rw [cancelRun_none st rid h]

theorem doStep_cancel_pending (st : MState) (rid : Nat) (v : RunValue)
    (h : lookA rid st.registry = some v) (hp : v.status = Status.pending) :
    doStep st (.cancel rid) = emit st (delEv rid) := by
  show (match cancelRun st rid with | .ok st' => st' | .error _ => st) = _
  rw [cancelRun_pending st rid v h hp]

theorem doStep_cancel_active (st : MState) (rid : Nat) (v : RunValue)
    (h : lookA rid st.registry = some v) (hp : ¬v.status = Status.pending) :
    doStep st (.cancel rid) = { st with pipelines := setFlags rid st.pipelines } := by
  show (match cancelRun st rid with | .ok st' => st' | .error _ => st) = _
  rw [cancelRun_active st rid v h hp]

/-! ## Run-id allocation -/

/-- Only `submit` allocates: every other action preserves `next_rid`. -/
theorem doStep_next_rid_of_not_submit (st : MState) (a : Act)
    (h : ∀ p e pr d k, a ≠ Act.submit p e pr d k) :
    (doStep st a).next_rid = st.next_rid := by
  cases a with
  | submit p e pr d k => exact absurd rfl (h p e pr d k)
  | cancel rid =>
    cases hl : lookA rid st.registry with
    | none => rw [doStep_cancel_none st rid hl]
    | some v =>
      by_cases hp : v.status = Status.pending
      · rw [doStep_cancel_pending st rid v hl hp]; rfl
      · rw [doStep_cancel_active st rid v hl hp]
  | tick p =>
    show (tick st p).next_rid = st.next_rid
    unfold tick
    split
    · split <;> rfl
    · split
      · rfl
      · split <;> first | rfl | (split <;> rfl)
  | advance t => rfl

/-- The ids handed out along any action sequence are consecutive,
starting at the state's `next_rid`. -/
theorem ridsOf_eq_range' : ∀ (acts : List Act) (st : MState),
    ridsOf st acts = List.range' st.next_rid (numSubmits acts)
  | [], _ => rfl
  | a :: acts, st => by
    cases a with
    | submit p e pr d k =>
      show st.next_rid :: ridsOf (doStep st (.submit p e pr d k)) acts
        = List.range' st.next_rid (1 + numSubmits acts)
      rw [ridsOf_eq_range' acts]
      show st.next_rid :: List.range' (st.next_rid + 1) (numSubmits acts)
        = List.range' st.next_rid (1 + numSubmits acts)
      rw [Nat.add_comm 1, List.range'_succ]
    | cancel rid =>
      show ridsOf (doStep st (.cancel rid)) acts
        = List.range' st.next_rid (0 + numSubmits acts)
      rw [ridsOf_eq_range' acts, doStep_next_rid_of_not_submit _ _ (by intros; simp),
        Nat.zero_add]
    | tick p =>
      show ridsOf (doStep st (.tick p)) acts
        = List.range' st.next_rid (0 + numSubmits acts)
      rw [ridsOf_eq_range' acts, doStep_next_rid_of_not_submit _ _ (by intros; simp),
        Nat.zero_add]
    | advance t =>
      show ridsOf (doStep st (.advance t)) acts
        = List.range' st.next_rid (0 + numSubmits acts)
      rw [ridsOf_eq_range' acts, doStep_next_rid_of_not_submit _ _ (by intros; simp),
        Nat.zero_add]

/-- Elements of `range' s n` are at least `s`. -/
theorem le_of_mem_range' : ∀ (n s m : Nat), m ∈ List.range' s n → s ≤ m
  | n + 1, s, m, h => by
    rw [List.range'_succ] at h
    rcases List.mem_cons.1 h with rfl | h
    · exact Nat.le_refl m
    · exact Nat.le_of_succ_le (le_of_mem_range' n (s + 1) m h)

/-- The list `range' s n` is strictly increasing. -/
theorem range'_pairwise_lt : ∀ (n s : Nat), (List.range' s n).Pairwise (· < ·)
  | 0, _ => List.Pairwise.nil
  | n + 1, s => by
    rw [List.range'_succ]
    exact List.Pairwise.cons
      (fun m hm => Nat.lt_of_lt_of_le (Nat.lt_succ_self s)
        (le_of_mem_range' n (s + 1) m hm))
      (range'_pairwise_lt n (s + 1))

/-! ## One event per mutation, and the replay round trip -/

theorem goodShape_insertEv (rid : Nat) (v : RunValue) : goodShape (insertEv rid v) :=
  Or.inl ⟨rfl, rfl, Or.inl ⟨rfl, rid, rfl⟩⟩

theorem goodShape_statusEv (rid : Nat) (s : Status) : goodShape (statusEv rid s) :=
  Or.inl ⟨rfl, rfl, Or.inr ⟨rid, rfl, rfl⟩⟩

theorem goodShape_delEv (rid : Nat) : goodShape (delEv rid) :=
  Or.inr ⟨rfl, rfl, rfl, rid, rfl⟩

/-- Every step of the system either leaves the registry and the log
untouched, or publishes exactly one well-shaped event, appended to the
log in the same step that applies it to the registry. -/
theorem doStep_one_event (st : MState) (a : Act) :
    ((doStep st a).registry = st.registry ∧ (doStep st a).log = st.log)
    ∨ ∃ e, goodShape e ∧ (doStep st a).log = st.log ++ [e]
        ∧ (doStep st a).registry = applyEvent st.registry e := by
  cases a with
  | submit p ex pr d k =>
    exact Or.inr ⟨insertEv st.next_rid ⟨p, .pending, pr, ex, d⟩,
      goodShape_insertEv _ _, rfl, rfl⟩
  | cancel rid =>
    cases hl : lookA rid st.registry with
    | none => rw [doStep_cancel_none st rid hl]; exact Or.inl ⟨rfl, rfl⟩
    | some v =>
      by_cases hp : v.status = Status.pending
      · rw [doStep_cancel_pending st rid v hl hp]
        exact Or.inr ⟨delEv rid, goodShape_delEv _, rfl, rfl⟩
      · rw [doStep_cancel_active st rid v hl hp]
        exact Or.inl ⟨rfl, rfl⟩
  | advance t => exact Or.inl ⟨rfl, rfl⟩
  | tick p =>
    show ((tick st p).registry = st.registry ∧ (tick st p).log = st.log)
      ∨ ∃ e, goodShape e ∧ (tick st p).log = st.log ++ [e]
          ∧ (tick st p).registry = applyEvent st.registry e
    unfold tick
    split
    · split
      · exact Or.inl ⟨rfl, rfl⟩
      · exact Or.inr ⟨_, goodShape_statusEv _ .preparing, rfl, rfl⟩
    · split
      · exact Or.inr ⟨_, goodShape_delEv _, rfl, rfl⟩
      · split
        · exact Or.inr ⟨_, goodShape_statusEv _ _, rfl, rfl⟩
        · exact Or.inr ⟨_, goodShape_statusEv _ _, rfl, rfl⟩
        · exact Or.inr ⟨_, goodShape_statusEv _ _, rfl, rfl⟩
        · split
          · exact Or.inr ⟨_, goodShape_statusEv _ .preparing, rfl, rfl⟩
          · exact Or.inl ⟨rfl, rfl⟩
        · exact Or.inr ⟨_, goodShape_statusEv _ _, rfl, rfl⟩
        · exact Or.inr ⟨_, goodShape_statusEv _ _, rfl, rfl⟩
        · exact Or.inr ⟨_, goodShape_delEv _, rfl, rfl⟩

/-- Replaying extends through any further execution. -/
theorem replay_execAll : ∀ (acts : List Act) (st : MState),
    replay st.log = st.registry →
    replay (execAll st acts).log = (execAll st acts).registry
  | [], _, h => h
  | a :: acts, st, h => by
    show replay (execAll (doStep st a) acts).log = (execAll (doStep st a) acts).registry
    apply replay_execAll acts
    rcases doStep_one_event st a with ⟨hr, hlog⟩ | ⟨e, _, hlog, hr⟩
    · rw [hlog, hr, h]
    · rw [hlog, hr]
      show (st.log ++ [e]).foldl applyEvent [] = _
      rw [List.foldl_append]
      show applyEvent (replay st.log) e = _
      rw [h]

/-! ## Claim theorems for allocation, event shape and replay -/

/-- C4: for every sequence of actions and any starting id, the run ids
returned by the successive `submit` calls are pairwise strictly
increasing in submission order; in particular no allocated id is ever
handed out again. -/
theorem submit_rids_strictly_increasing (n : Nat) (acts : List Act) :
    (ridsOf (initState n) acts).Pairwise (· < ·) := by
  rw [ridsOf_eq_range']
  exact range'_pairwise_lt _ _

/-- C10: a scheduler constructed with initial run id `n` allocates ids
consecutively (`n`, `n + 1`, …, one per submission, whatever other
actions are interleaved), and each submission publishes an insertion
event whose value holds exactly the pipeline, status `pending`, the
submitted priority, the job descriptor and the submitted due date. -/
theorem submit_allocation_consecutive :
    (∀ (n : Nat) (acts : List Act),
      ridsOf (initState n) acts = List.range' n (numSubmits acts))
    ∧ ∀ (st : MState) (p : String) (e : Expid) (pr : Int) (d : Option Int)
        (k : Nat),
      (doStep st (Act.submit p e pr d k)).log
        = st.log ++ [insertEv st.next_rid ⟨p, Status.pending, pr, e, d⟩] :=
  ⟨fun _ acts => ridsOf_eq_range' acts _, fun _ _ _ _ _ _ => rfl⟩

/-- C6 as stated is refuted: the first event of scenario A — the
insertion of the submitted run — carries the action string `"setitem"`,
which is none of the action names `insert`, `update`, `delete` the claim
prescribes. -/
theorem event_action_name_counterexample :
    (execAll (initState 0) (scnA exEmpty 0)).log.head?
      = some (insertEv 0 ⟨"main", .pending, 0, exEmpty, none⟩)
    ∧ (insertEv 0 ⟨"main", .pending, 0, exEmpty, none⟩).action = "setitem"
    ∧ "setitem" ∉ (["insert", "update", "delete"] : List String) := by
  refine ⟨?_, rfl, by decide⟩
  rw [execAll_scnA]
  rfl

/-- C6 amended: every step either leaves the registry and the event log
unchanged, or performs exactly one registry mutation, publishing exactly
one event of the shape pinned by `_get_basic_steps` (`"setitem"` with a
value, keyed by run id at the root or by `"status"` under a run id, or
`"delitem"` with no value) — appended to the log in the very step that
applies it, i.e. before the mutating call returns. -/
theorem each_mutation_exactly_one_event (st : MState) (a : Act) :
    ((doStep st a).registry = st.registry ∧ (doStep st a).log = st.log)
    ∨ ∃ e, goodShape e ∧ (doStep st a).log = st.log ++ [e]
        ∧ (doStep st a).registry = applyEvent st.registry e :=
  doStep_one_event st a

/-- C7: at every reachable point of every execution, replaying the full
event log published so far into an empty container reproduces the live
registry exactly. -/
theorem replay_round_trip (n : Nat) (acts : List Act) :
    replay (execAll (initState n) acts).log = (execAll (initState n) acts).registry :=
  replay_execAll acts (initState n) rfl

/-- C9: the controller-manager frontend exposes exactly one
scheduler-facing remote procedure, `retry_now`, on its single RPC
target `"ctlmgr"` (the transport's built-in `terminate` is the only
other remote call, and is not a scheduler integration point), and its
only master-facing wiring is a notification subscription on a network
port. -/
theorem ctlmgr_single_rpc :
    ctlMgrRPCMethods = ["retry_now"]
    ∧ ctlmgrServer.targets = [("ctlmgr", ["retry_now"])]
    ∧ ctlmgrServer.builtin_terminate = true
    ∧ ctlmgrWiring.notify_port = 3250 ∧ ctlmgrWiring.server_host = "::1" :=
  ⟨rfl, rfl, rfl, rfl, rfl⟩

/-- C8: `cancel(rid)` fails with `UnknownRunId` exactly when the run id
is absent from the registry; cancelling a still-pending run removes
exactly that run from the registry and publishes exactly one event for
it — its deletion — with no intermediate status events, leaving every
other component of the state unchanged. -/
theorem cancel_unknown_and_pending (st : MState) (rid : Nat) :
    (cancelRun st rid = .error .UnknownRunId ↔ lookA rid st.registry = none)
    ∧ (∀ v, lookA rid st.registry = some v → v.status = Status.pending →
        cancelRun st rid = .ok { st with
          registry := eraseA rid st.registry,
          log := st.log ++ [delEv rid] }) := by
  constructor
  · constructor
    · intro h
      cases hl : lookA rid st.registry with
      | none => rfl
      | some v =>
        by_cases hp : v.status = Status.pending
        · rw [cancelRun_pending st rid v hl hp] at h
          exact absurd h (by simp)
        · rw [cancelRun_active st rid v hl hp] at h
          exact absurd h (by simp)
    · intro h
      exact cancelRun_none st rid h
  · intro v hl hp
    rw [cancelRun_pending st rid v hl hp]
    rfl

/-- Witness for `cancel_unknown_and_pending`: in the state reached right
after the submission of scenario A, run 0 is pending, and cancelling it
deletes it with a single `delitem` event. -/
theorem cancel_unknown_and_pending_witness :
    cancelRun (stateA1 exEmpty) 0 = .ok { stateA1 exEmpty with
      registry := eraseA 0 (stateA1 exEmpty).registry,
      log := (stateA1 exEmpty).log ++ [delEv 0] } :=
  (cancel_unknown_and_pending (stateA1 exEmpty) 0).2
    ⟨"main", .pending, 0, exEmpty, none⟩ rfl rfl

/-! ## Association-list lemmas -/

theorem lookA_setA_self {κ ν : Type} [DecidableEq κ] (k : κ) (v : ν) :
    ∀ l : List (κ × ν), lookA k (setA k v l) = some v
  | [] => by simp [setA, lookA]
  | (k0, v0) :: t => by
    simp only [setA]
    by_cases h0 : k0 = k
    · rw [if_pos h0]; simp [lookA]
    · rw [if_neg h0]
      show (if k0 = k then some v0 else lookA k (setA k v t)) = some v
      rw [if_neg h0]
      exact lookA_setA_self k v t

theorem lookA_setA_ne {κ ν : Type} [DecidableEq κ] {k k' : κ} (v : ν)
    (h : k' ≠ k) : ∀ l : List (κ × ν), lookA k' (setA k v l) = lookA k' l
  | [] => by
    show (if k = k' then some v else none) = none
    rw [if_neg (fun hh => h hh.symm)]
  | (k0, v0) :: t => by
    simp only [setA]
    by_cases h0 : k0 = k
    · rw [if_pos h0]
      show (if k = k' then some v else lookA k' t)
        = if k0 = k' then some v0 else lookA k' t
      rw [if_neg (fun hh => h hh.symm), if_neg (h0 ▸ fun hh => h hh.symm)]
    · rw [if_neg h0]
      show (if k0 = k' then some v0 else lookA k' (setA k v t))
        = if k0 = k' then some v0 else lookA k' t
      by_cases h1 : k0 = k'
      · rw [if_pos h1, if_pos h1]
      · rw [if_neg h1, if_neg h1]
        exact lookA_setA_ne v h t

theorem lookA_eraseA_ne {κ ν : Type} [DecidableEq κ] {k k' : κ}
    (h : k' ≠ k) : ∀ l : List (κ × ν), lookA k' (eraseA k l) = lookA k' l
  | [] => rfl
  | (k0, v0) :: t => by
    simp only [eraseA]
    by_cases h0 : k0 = k
    · rw [if_pos h0]
      show lookA k' t = if k0 = k' then some v0 else lookA k' t
      rw [if_neg (h0 ▸ fun hh => h hh.symm)]
    · rw [if_neg h0]
      show (if k0 = k' then some v0 else lookA k' (eraseA k t))
        = if k0 = k' then some v0 else lookA k' t
      by_cases h1 : k0 = k'
      · rw [if_pos h1, if_pos h1]
      · rw [if_neg h1, if_neg h1]
        exact lookA_eraseA_ne h t

theorem keys_eraseA_sublist {κ ν : Type} [DecidableEq κ] (k : κ) :
    ∀ l : List (κ × ν), ((eraseA k l).map Prod.fst).Sublist (l.map Prod.fst)
  | [] => List.Sublist.refl _
  | (k0, v0) :: t => by
    simp only [eraseA]
    by_cases h0 : k0 = k
    · rw [if_pos h0]
      exact (List.sublist_cons_self _ _)
    · rw [if_neg h0]
      exact List.Sublist.cons₂ _ (keys_eraseA_sublist k t)

theorem lookA_eq_none_iff {κ ν : Type} [DecidableEq κ] (k : κ) :
    ∀ l : List (κ × ν), lookA k l = none ↔ k ∉ l.map Prod.fst
  | [] => by simp [lookA]
  | (k0, v0) :: t => by
    simp only [lookA, List.map_cons, List.mem_cons]
    by_cases h0 : k0 = k
    · rw [if_pos h0]
      simp [h0]
    · rw [if_neg h0]
      rw [lookA_eq_none_iff k t]
      constructor
      · rintro h (rfl | hm)
        · exact h0 rfl
        · exact h hm
      · intro h hm
        exact h (Or.inr hm)

theorem lookA_eraseA_self {κ ν : Type} [DecidableEq κ] (k : κ) :
    ∀ l : List (κ × ν), (l.map Prod.fst).Nodup → lookA k (eraseA k l) = none
  | [], _ => rfl
  | (k0, v0) :: t, hnd => by
    simp only [eraseA]
    have hnd' := (List.nodup_cons.1 hnd).2
    have hk0 := (List.nodup_cons.1 hnd).1
    by_cases h0 : k0 = k
    · rw [if_pos h0]
      rw [lookA_eq_none_iff]
      exact h0 ▸ hk0
    · rw [if_neg h0]
      show (if k0 = k then some v0 else lookA k (eraseA k t)) = none
      rw [if_neg h0]
      exact lookA_eraseA_self k t hnd'

theorem lookA_mapA_self {κ ν : Type} [DecidableEq κ] (k : κ) (f : ν → ν) :
    ∀ l : List (κ × ν), lookA k (mapA k f l) = (lookA k l).map f
  | [] => rfl
  | (k0, v0) :: t => by
    simp only [mapA, List.map_cons]
    by_cases h0 : k0 = k
    · rw [if_pos h0]
      show (if k0 = k then some (f v0) else lookA k (mapA k f t))
        = Option.map f (if k0 = k then some v0 else lookA k t)
      rw [if_pos h0, if_pos h0]
      rfl
    · rw [if_neg h0]
      show (if k0 = k then some v0 else lookA k (mapA k f t))
        = Option.map f (if k0 = k then some v0 else lookA k t)
      rw [if_neg h0, if_neg h0]
      exact lookA_mapA_self k f t

theorem lookA_mapA_ne {κ ν : Type} [DecidableEq κ] {k k' : κ} (f : ν → ν)
    (h : k' ≠ k) : ∀ l : List (κ × ν), lookA k' (mapA k f l) = lookA k' l
  | [] => rfl
  | (k0, v0) :: t => by
    simp only [mapA, List.map_cons]
    by_cases h0 : k0 = k
    · rw [if_pos h0]
      show (if k0 = k' then some (f v0) else lookA k' (mapA k f t))
        = if k0 = k' then some v0 else lookA k' t
      rw [if_neg (h0 ▸ fun hh => h hh.symm), if_neg (h0 ▸ fun hh => h hh.symm)]
      exact lookA_mapA_ne f h t
    · rw [if_neg h0]
      show (if k0 = k' then some v0 else lookA k' (mapA k f t))
        = if k0 = k' then some v0 else lookA k' t
      by_cases h1 : k0 = k'
      · rw [if_pos h1, if_pos h1]
      · rw [if_neg h1, if_neg h1]
        exact lookA_mapA_ne f h t

theorem keys_mapA {κ ν : Type} [DecidableEq κ] (k : κ) (f : ν → ν) :
    ∀ l : List (κ × ν), (mapA k f l).map Prod.fst = l.map Prod.fst
  | [] => rfl
  | (k0, v0) :: t => by
    simp only [mapA, List.map_cons]
    by_cases h0 : k0 = k
    · rw [if_pos h0]
      show k0 :: (mapA k f t).map Prod.fst = k0 :: t.map Prod.fst
      rw [keys_mapA k f t]
    · rw [if_neg h0]
      show k0 :: (mapA k f t).map Prod.fst = k0 :: t.map Prod.fst
      rw [keys_mapA k f t]

theorem setA_of_lookA_none {κ ν : Type} [DecidableEq κ] {k : κ} (v : ν) :
    ∀ l : List (κ × ν), lookA k l = none → setA k v l = l ++ [(k, v)]
  | [], _ => rfl
  | (k0, v0) :: t, h => by
    simp only [lookA] at h
    by_cases h0 : k0 = k
    · rw [if_pos h0] at h
      exact absurd h (by simp)
    · rw [if_neg h0] at h
      simp only [setA]
      rw [if_neg h0, setA_of_lookA_none v t h]
      rfl

theorem lookA_append_left {κ ν : Type} [DecidableEq κ] {k : κ} {v : ν} :
    ∀ {l₁ : List (κ × ν)} (l₂ : List (κ × ν)), lookA k l₁ = some v →
      lookA k (l₁ ++ l₂) = some v
  | [], _, h => by simp [lookA] at h
  | (k0, v0) :: t, l₂, h => by
    simp only [lookA] at h ⊢
    by_cases h0 : k0 = k
    · rw [if_pos h0] at h ⊢
      exact h
    · rw [if_neg h0] at h ⊢
      exact lookA_append_left l₂ h

theorem lookA_append_of_none {κ ν : Type} [DecidableEq κ] {k : κ} :
    ∀ {l₁ : List (κ × ν)} (l₂ : List (κ × ν)), lookA k l₁ = none →
      lookA k (l₁ ++ l₂) = lookA k l₂
  | [], _, _ => rfl
  | (k0, v0) :: t, l₂, h => by
    simp only [lookA] at h ⊢
    by_cases h0 : k0 = k
    · rw [if_pos h0] at h
      exact absurd h (by simp)
    · rw [if_neg h0] at h ⊢
      exact lookA_append_of_none l₂ h

theorem lookA_of_mem {κ ν : Type} [DecidableEq κ] {k : κ} {v : ν} :
    ∀ {l : List (κ × ν)}, (l.map Prod.fst).Nodup → (k, v) ∈ l →
      lookA k l = some v
  | [], _, hm => absurd hm (List.not_mem_nil _)
  | (k0, v0) :: t, hnd, hm => by
    simp only [lookA]
    rcases List.mem_cons.1 hm with heq | hm'
    · cases heq
      rw [if_pos rfl]
    · by_cases h0 : k0 = k
      · subst h0
        exact absurd (List.mem_map_of_mem Prod.fst hm')
          ((List.nodup_cons.1 hnd).1)
      · rw [if_neg h0]
        exact lookA_of_mem (List.nodup_cons.1 hnd).2 hm'

theorem lookA_map_snd {κ ν : Type} [DecidableEq κ] (k : κ) (g : ν → ν) :
    ∀ l : List (κ × ν),
      lookA k (l.map (fun s => (s.1, g s.2))) = (lookA k l).map g
  | [] => rfl
  | (k0, v0) :: t => by
    simp only [List.map_cons]
    show (if k0 = k then some (g v0) else lookA k (t.map fun s => (s.1, g s.2)))
      = Option.map g (if k0 = k then some v0 else lookA k t)
    by_cases h0 : k0 = k
    · rw [if_pos h0, if_pos h0]
      rfl
    · rw [if_neg h0, if_neg h0]
      exact lookA_map_snd k g t

theorem nodup_append_singleton {κ : Type} {l : List κ} {a : κ}
    (hnd : l.Nodup) (ha : a ∉ l) : (l ++ [a]).Nodup := by
  rw [List.nodup_append]
  exact ⟨hnd, List.nodup_singleton a, by simpa using ha⟩

/-! ## Event, status and selection helper lemmas -/

theorem eRid_insertEv (rid : Nat) (v : RunValue) : eRid (insertEv rid v) = some rid := rfl

theorem eRid_statusEv (rid : Nat) (s : Status) : eRid (statusEv rid s) = some rid := rfl

theorem eRid_delEv (rid : Nat) : eRid (delEv rid) = some rid := rfl

theorem eventsFor_append_same (rid : Nat) (l : List Event) (e : Event)
    (h : eRid e = some rid) :
    eventsFor rid (l ++ [e]) = eventsFor rid l ++ [e] := by
  unfold eventsFor
  rw [List.filter_append]
  congr 1
  simp [h]

theorem eventsFor_append_other (rid : Nat) (l : List Event) (e : Event) (r : Nat)
    (h : eRid e = some r) (hne : r ≠ rid) :
    eventsFor rid (l ++ [e]) = eventsFor rid l := by
  unfold eventsFor
  rw [List.filter_append]
  have h2 : List.filter (fun e => decide (eRid e = some rid)) [e] = [] := by
    simp [h, hne]
  rw [h2, List.append_nil]

theorem phaseStatus_ne_pending : ∀ φ : RPhase, phaseStatus φ ≠ Status.pending := by
  intro φ
  cases φ <;> simp [phaseStatus]

theorem withStatus_self {v : RunValue} {s : Status} (h : v.status = s) :
    withStatus v s = v := by
  cases v
  cases h
  rfl

theorem withStatus_withStatus (v : RunValue) (a b : Status) :
    withStatus (withStatus v a) b = withStatus v b := rfl

theorem getStack_eq_cons {st : MState} {p : String} {e : ActiveRun}
    {s : List ActiveRun} (h : getStack st p = e :: s) :
    lookA p st.pipelines = some (e :: s) := by
  unfold getStack at h
  cases h' : lookA p st.pipelines with
  | none => rw [h'] at h; exact absurd h (by simp)
  | some s' => rw [h'] at h; rw [show s' = e :: s from h]

theorem eligible_true {st : MState} {p : String} {floor : Option Int}
    {v : RunValue} (h : eligible st p floor v = true) :
    v.pipeline = p ∧ v.status = Status.pending := by
  unfold eligible at h
  simp only [Bool.and_eq_true, decide_eq_true_eq] at h
  exact ⟨h.1.1.1, h.1.1.2⟩

theorem foldl_selStep_spec (st : MState) (p : String) (floor : Option Int) :
    ∀ (l : List (Nat × RunValue)) (acc : Option (Nat × RunValue))
      (x : Nat × RunValue),
    l.foldl (selStep st p floor) acc = some x →
    acc = some x ∨ (x ∈ l ∧ eligible st p floor x.2 = true)
  | [], _, _, h => Or.inl h
  | y :: t, acc, x, h => by
    rcases foldl_selStep_spec st p floor t (selStep st p floor acc y) x h with
      h1 | ⟨hm, he⟩
    · unfold selStep at h1
      by_cases hel : eligible st p floor y.2 = true
      · rw [if_pos hel] at h1
        cases acc with
        | none =>
          cases h1
          exact Or.inr ⟨List.mem_cons_self _ _, hel⟩
        | some z =>
          have h2 : (if better y z = true then some y else some z) = some x := h1
          by_cases hb : better y z = true
          · rw [if_pos hb] at h2
            cases h2
            exact Or.inr ⟨List.mem_cons_self _ _, hel⟩
          · rw [if_neg hb] at h2
            exact Or.inl h2
      · rw [if_neg hel] at h1
        exact Or.inl h1
    · exact Or.inr ⟨List.mem_cons_of_mem _ hm, he⟩

theorem selectBest_spec {st : MState} {p : String} {floor : Option Int}
    {rid : Nat} {v : RunValue} (h : selectBest st p floor = some (rid, v)) :
    (rid, v) ∈ st.registry ∧ eligible st p floor v = true := by
  rcases foldl_selStep_spec st p floor st.registry none (rid, v) h with h1 | h2
  · exact absurd h1 (by simp)
  · exact h2

/-! ## Preservation of the invariant -/

theorem applyEvent_insertEv (reg : Registry) (rid : Nat) (v : RunValue) :
    applyEvent reg (insertEv rid v) = setA rid v reg := rfl

theorem applyEvent_statusEv (reg : Registry) (rid : Nat) (s : Status) :
    applyEvent reg (statusEv rid s) = mapA rid (fun w => withStatus w s) reg := rfl

theorem applyEvent_delEv (reg : Registry) (rid : Nat) :
    applyEvent reg (delEv rid) = eraseA rid reg := rfl

theorem getStack_setStack_self (st : MState) (p : String) (s : List ActiveRun) :
    getStack (setStack st p s) p = s := by
  show (lookA p (setA p s st.pipelines)).getD [] = s
  rw [lookA_setA_self]
  rfl

theorem getStack_setStack_ne {q p : String} (st : MState) (s : List ActiveRun)
    (h : q ≠ p) : getStack (setStack st p s) q = getStack st q := by
  show (lookA q (setA p s st.pipelines)).getD [] = _
  rw [lookA_setA_ne _ h]
  rfl

/-- Starting a selected pending run preserves the invariant, provided
every entry already on the pipeline's stack is suspended at a pause
checkpoint. -/
theorem inv_startRun {st : MState} {p : String} {rid : Nat} {v : RunValue}
    (hInv : Inv st)
    (hl : lookA rid st.registry = some v)
    (hp : v.pipeline = p) (hpend : v.status = Status.pending)
    (hsusp : ∀ e ∈ getStack st p, ∃ k, e.phase = RPhase.running (k + 1)) :
    Inv (startRun st p rid) := by
  have hreg : (startRun st p rid).registry
      = mapA rid (fun w => withStatus w Status.preparing) st.registry := rfl
  have hlog : (startRun st p rid).log
      = st.log ++ [statusEv rid Status.preparing] := rfl
  have hstacks : ∀ q, getStack (startRun st p rid) q
      = if q = p then mkEntry st rid :: getStack st p else getStack st q := by
    intro q
    by_cases hq : q = p
    · subst hq
      rw [if_pos rfl]
      exact getStack_setStack_self _ _ _
    · rw [if_neg hq]
      exact getStack_setStack_ne _ _ hq
  have hstackne : ∀ q, ∀ e ∈ getStack st q, e.rid ≠ rid := by
    intro q e he hre
    rcases hInv.coher q e he with ⟨w, hw, hwp, hws⟩
    rw [hre, hl] at hw
    cases hw
    exact phaseStatus_ne_pending e.phase (hws ▸ hpend)
  refine { regKeys := ?_, fresh := ?_, coher := ?_, pipeNodup := ?_,
           onStack := ?_, tails := ?_, trace := ?_, traceGone := ?_ }
  · rw [hreg, keys_mapA]
    exact hInv.regKeys
  · intro r hr
    have hr' : st.next_rid ≤ r := hr
    have hrne : r ≠ rid := by
      intro heq
      subst heq
      rw [(hInv.fresh r hr').1] at hl
      exact Option.noConfusion hl
    constructor
    · rw [hreg, lookA_mapA_ne _ hrne]
      exact (hInv.fresh r hr').1
    · rw [hlog, eventsFor_append_other r st.log (statusEv rid Status.preparing)
        rid (eRid_statusEv rid _) (fun h => hrne h.symm)]
      exact (hInv.fresh r hr').2
  · intro q e he
    rw [hstacks q] at he
    by_cases hq : q = p
    · subst hq
      rw [if_pos rfl] at he
      rcases List.mem_cons.1 he with rfl | he'
      · refine ⟨withStatus v Status.preparing, ?_, ?_, rfl⟩
        · show lookA rid (startRun st q rid).registry = _
          rw [hreg, lookA_mapA_self, hl]
          rfl
        · show v.pipeline = q
          exact hp
      · rcases hInv.coher q e he' with ⟨w, hw, hwp, hws⟩
        exact ⟨w, by rw [hreg, lookA_mapA_ne _ (hstackne q e he')]; exact hw,
          hwp, hws⟩
    · rw [if_neg hq] at he
      rcases hInv.coher q e he with ⟨w, hw, hwp, hws⟩
      exact ⟨w, by rw [hreg, lookA_mapA_ne _ (hstackne q e he)]; exact hw,
        hwp, hws⟩
  · intro q
    rw [hstacks q]
    by_cases hq : q = p
    · subst hq
      rw [if_pos rfl, List.map_cons]
      refine List.nodup_cons.2 ⟨?_, hInv.pipeNodup q⟩
      intro hmem
      rcases List.mem_map.1 hmem with ⟨e, he, hre⟩
      exact hstackne q e he hre
    · rw [if_neg hq]
      exact hInv.pipeNodup q
  · intro r w hw hnp
    by_cases hrr : r = rid
    · subst hrr
      rw [hreg, lookA_mapA_self, hl] at hw
      simp only [Option.map_some'] at hw
      cases hw
      rw [hstacks, if_pos (show (withStatus v Status.preparing).pipeline = p from hp),
        List.map_cons]
      exact List.mem_cons_self _ _
    · rw [hreg, lookA_mapA_ne _ hrr] at hw
      have hmem := hInv.onStack r w hw hnp
      rw [hstacks]
      by_cases hq : w.pipeline = p
      · rw [if_pos hq]
        rw [hq] at hmem
        rw [List.map_cons]
        exact List.mem_cons_of_mem _ hmem
      · rw [if_neg hq]
        exact hmem
  · intro q e he
    rw [hstacks q] at he
    by_cases hq : q = p
    · subst hq
      rw [if_pos rfl, List.tail_cons] at he
      exact hsusp e he
    · rw [if_neg hq] at he
      exact hInv.tails q e he
  · intro r w hw
    by_cases hrr : r = rid
    · subst hrr
      rw [hreg, lookA_mapA_self, hl] at hw
      simp only [Option.map_some'] at hw
      cases hw
      rcases hInv.trace r v hl with ⟨v₀, hv0, hvs, hev⟩
      refine ⟨v₀, hv0, ?_, ?_⟩
      · show withStatus v₀ Status.preparing = withStatus v Status.preparing
        rw [← hvs, withStatus_withStatus]
      · show eventsFor r (startRun st p r).log
          = liveTrace r v₀ (withStatus v Status.preparing).status
        rw [hlog, eventsFor_append_same r st.log (statusEv r Status.preparing)
          (eRid_statusEv r _), hev, hpend]
        rfl
    · rw [hreg, lookA_mapA_ne _ hrr] at hw
      rcases hInv.trace r w hw with ⟨v₀, hv0, hvs, hev⟩
      refine ⟨v₀, hv0, hvs, ?_⟩
      rw [hlog, eventsFor_append_other r st.log (statusEv rid Status.preparing)
        rid (eRid_statusEv rid _) (fun h => hrr h.symm), hev]
  · intro r hr
    by_cases hrr : r = rid
    · subst hrr
      rw [hreg, lookA_mapA_self, hl] at hr
      exact absurd hr (by simp)
    · rw [hreg, lookA_mapA_ne _ hrr] at hr
      rcases hInv.traceGone r hr with h0 | ⟨w, s, hws, hev⟩
      · left
        rw [hlog, eventsFor_append_other r st.log (statusEv rid Status.preparing)
          rid (eRid_statusEv rid _) (fun h => hrr h.symm)]
        exact h0
      · right
        exact ⟨w, s, hws, by
          rw [hlog, eventsFor_append_other r st.log (statusEv rid Status.preparing)
            rid (eRid_statusEv rid _) (fun h => hrr h.symm)]
          exact hev⟩

/-- Advancing the head of a pipeline's stack to its next phase preserves
the invariant, provided the published lifecycle extends by exactly the
new phase's status. -/
theorem inv_advanceTop {st : MState} {p : String} {top : ActiveRun}
    {rest : List ActiveRun} {φ : RPhase}
    (hInv : Inv st)
    (hstack : getStack st p = top :: rest)
    (htrans : upTo (phaseStatus φ)
      = upTo (phaseStatus top.phase) ++ [phaseStatus φ]) :
    Inv (advanceTop st p top rest φ) := by
  rcases hInv.coher p top (by rw [hstack]; exact List.mem_cons_self _ _) with
    ⟨v, hl, hp, hs⟩
  have hreg : (advanceTop st p top rest φ).registry
      = mapA top.rid (fun w => withStatus w (phaseStatus φ)) st.registry := rfl
  have hlog : (advanceTop st p top rest φ).log
      = st.log ++ [statusEv top.rid (phaseStatus φ)] := rfl
  have hstacks : ∀ q, getStack (advanceTop st p top rest φ) q
      = if q = p then { top with phase := φ } :: rest else getStack st q := by
    intro q
    by_cases hq : q = p
    · subst hq
      rw [if_pos rfl]
      exact getStack_setStack_self _ _ _
    · rw [if_neg hq]
      exact getStack_setStack_ne _ _ hq
  have hrestne : ∀ e ∈ rest, e.rid ≠ top.rid := by
    have h0 := hInv.pipeNodup p
    rw [hstack, List.map_cons] at h0
    intro e he hre
    exact (List.nodup_cons.1 h0).1 (hre ▸ List.mem_map_of_mem ActiveRun.rid he)
  have hne : ∀ q, q ≠ p → ∀ e ∈ getStack st q, e.rid ≠ top.rid := by
    intro q hq e he hre
    rcases hInv.coher q e he with ⟨w, hw, hwp, hws⟩
    rw [hre, hl] at hw
    cases hw
    exact hq (hwp ▸ hp)
  refine { regKeys := ?_, fresh := ?_, coher := ?_, pipeNodup := ?_,
           onStack := ?_, tails := ?_, trace := ?_, traceGone := ?_ }
  · rw [hreg, keys_mapA]
    exact hInv.regKeys
  · intro r hr
    have hr' : st.next_rid ≤ r := hr
    have hrne : r ≠ top.rid := by
      intro heq
      rw [heq] at hr'
      rw [(hInv.fresh top.rid hr').1] at hl
      exact Option.noConfusion hl
    constructor
    · rw [hreg, lookA_mapA_ne _ hrne]
      exact (hInv.fresh r hr').1
    · rw [hlog, eventsFor_append_other r st.log (statusEv top.rid (phaseStatus φ))
        top.rid (eRid_statusEv top.rid _) (fun h => hrne h.symm)]
      exact (hInv.fresh r hr').2
  · intro q e he
    rw [hstacks q] at he
    by_cases hq : q = p
    · subst hq
      rw [if_pos rfl] at he
      rcases List.mem_cons.1 he with rfl | he'
      · refine ⟨withStatus v (phaseStatus φ), ?_, ?_, rfl⟩
        · show lookA top.rid (advanceTop st q top rest φ).registry = _
          rw [hreg, lookA_mapA_self, hl]
          rfl
        · show v.pipeline = q
          exact hp
      · rcases hInv.coher q e (by rw [hstack]; exact List.mem_cons_of_mem _ he')
          with ⟨w, hw, hwp, hws⟩
        exact ⟨w, by rw [hreg, lookA_mapA_ne _ (hrestne e he')]; exact hw,
          hwp, hws⟩
    · rw [if_neg hq] at he
      rcases hInv.coher q e he with ⟨w, hw, hwp, hws⟩
      exact ⟨w, by rw [hreg, lookA_mapA_ne _ (hne q hq e he)]; exact hw,
        hwp, hws⟩
  · intro q
    rw [hstacks q]
    by_cases hq : q = p
    · subst hq
      rw [if_pos rfl, List.map_cons]
      have h0 := hInv.pipeNodup q
      rw [hstack, List.map_cons] at h0
      exact h0
    · rw [if_neg hq]
      exact hInv.pipeNodup q
  · intro r w hw hnp
    by_cases hrr : r = top.rid
    · subst hrr
      rw [hreg, lookA_mapA_self, hl] at hw
      simp only [Option.map_some'] at hw
      cases hw
      rw [hstacks, if_pos (show (withStatus v (phaseStatus φ)).pipeline = p from hp),
        List.map_cons]
      exact List.mem_cons_self _ _
    · rw [hreg, lookA_mapA_ne _ hrr] at hw
      have hmem := hInv.onStack r w hw hnp
      rw [hstacks]
      by_cases hqp : w.pipeline = p
      · rw [if_pos hqp]
        rw [hqp, hstack, List.map_cons] at hmem
        rcases List.mem_cons.1 hmem with h1 | h1
        · exact absurd h1 hrr
        · rw [List.map_cons]
          exact List.mem_cons_of_mem _ h1
      · rw [if_neg hqp]
        exact hmem
  · intro q e he
    rw [hstacks q] at he
    by_cases hq : q = p
    · subst hq
      rw [if_pos rfl, List.tail_cons] at he
      have h0 := hInv.tails q
      rw [hstack, List.tail_cons] at h0
      exact h0 e he
    · rw [if_neg hq] at he
      exact hInv.tails q e he
  · intro r w hw
    by_cases hrr : r = top.rid
    · subst hrr
      rw [hreg, lookA_mapA_self, hl] at hw
      simp only [Option.map_some'] at hw
      cases hw
      rcases hInv.trace top.rid v hl with ⟨v₀, hv0, hvs, hev⟩
      refine ⟨v₀, hv0, ?_, ?_⟩
      · show withStatus v₀ (phaseStatus φ) = withStatus v (phaseStatus φ)
        rw [← hvs, withStatus_withStatus]
      · show eventsFor top.rid (advanceTop st p top rest φ).log
          = liveTrace top.rid v₀ (phaseStatus φ)
        rw [hlog, eventsFor_append_same top.rid st.log
          (statusEv top.rid (phaseStatus φ)) (eRid_statusEv top.rid _), hev]
        show liveTrace top.rid v₀ v.status ++ [statusEv top.rid (phaseStatus φ)]
          = liveTrace top.rid v₀ (phaseStatus φ)
        unfold liveTrace
        rw [hs, htrans, List.map_append]
        rfl
    · rw [hreg, lookA_mapA_ne _ hrr] at hw
      rcases hInv.trace r w hw with ⟨v₀, hv0, hvs, hev⟩
      refine ⟨v₀, hv0, hvs, ?_⟩
      rw [hlog, eventsFor_append_other r st.log
        (statusEv top.rid (phaseStatus φ)) top.rid (eRid_statusEv top.rid _)
        (fun h => hrr h.symm), hev]
  · intro r hr
    by_cases hrr : r = top.rid
    · subst hrr
      rw [hreg, lookA_mapA_self, hl] at hr
      exact absurd hr (by simp)
    · rw [hreg, lookA_mapA_ne _ hrr] at hr
      rcases hInv.traceGone r hr with h0 | ⟨w, s, hws, hev⟩
      · left
        rw [hlog, eventsFor_append_other r st.log
          (statusEv top.rid (phaseStatus φ)) top.rid (eRid_statusEv top.rid _)
          (fun h => hrr h.symm)]
        exact h0
      · right
        exact ⟨w, s, hws, by
          rw [hlog, eventsFor_append_other r st.log
            (statusEv top.rid (phaseStatus φ)) top.rid (eRid_statusEv top.rid _)
            (fun h => hrr h.symm)]
          exact hev⟩

/-- Removing the finished (or cancelled) head of a pipeline's stack
preserves the invariant. -/
theorem inv_finishTop {st : MState} {p : String} {top : ActiveRun}
    {rest : List ActiveRun}
    (hInv : Inv st)
    (hstack : getStack st p = top :: rest) :
    Inv (finishTop st p top rest) := by
  rcases hInv.coher p top (by rw [hstack]; exact List.mem_cons_self _ _) with
    ⟨v, hl, hp, hs⟩
  have hreg : (finishTop st p top rest).registry
      = eraseA top.rid st.registry := rfl
  have hlog : (finishTop st p top rest).log = st.log ++ [delEv top.rid] := rfl
  have hstacks : ∀ q, getStack (finishTop st p top rest) q
      = if q = p then rest else getStack st q := by
    intro q
    by_cases hq : q = p
    · subst hq
      rw [if_pos rfl]
      exact getStack_setStack_self _ _ _
    · rw [if_neg hq]
      exact getStack_setStack_ne _ _ hq
  have hrestne : ∀ e ∈ rest, e.rid ≠ top.rid := by
    have h0 := hInv.pipeNodup p
    rw [hstack, List.map_cons] at h0
    intro e he hre
    exact (List.nodup_cons.1 h0).1 (hre ▸ List.mem_map_of_mem ActiveRun.rid he)
  have hne : ∀ q, q ≠ p → ∀ e ∈ getStack st q, e.rid ≠ top.rid := by
    intro q hq e he hre
    rcases hInv.coher q e he with ⟨w, hw, hwp, hws⟩
    rw [hre, hl] at hw
    cases hw
    exact hq (hwp ▸ hp)
  have herase : lookA top.rid (eraseA top.rid st.registry) = none :=
    lookA_eraseA_self _ _ hInv.regKeys
  refine { regKeys := ?_, fresh := ?_, coher := ?_, pipeNodup := ?_,
           onStack := ?_, tails := ?_, trace := ?_, traceGone := ?_ }
  · rw [hreg]
    exact List.Nodup.sublist (keys_eraseA_sublist _ _) hInv.regKeys
  · intro r hr
    have hr' : st.next_rid ≤ r := hr
    have hrne : r ≠ top.rid := by
      intro heq
      rw [heq] at hr'
      rw [(hInv.fresh top.rid hr').1] at hl
      exact Option.noConfusion hl
    constructor
    · rw [hreg, lookA_eraseA_ne hrne]
      exact (hInv.fresh r hr').1
    · rw [hlog, eventsFor_append_other r st.log (delEv top.rid)
        top.rid (eRid_delEv top.rid) (fun h => hrne h.symm)]
      exact (hInv.fresh r hr').2
  · intro q e he
    rw [hstacks q] at he
    by_cases hq : q = p
    · subst hq
      rw [if_pos rfl] at he
      rcases hInv.coher q e (by rw [hstack]; exact List.mem_cons_of_mem _ he)
        with ⟨w, hw, hwp, hws⟩
      exact ⟨w, by rw [hreg, lookA_eraseA_ne (hrestne e he)]; exact hw,
        hwp, hws⟩
    · rw [if_neg hq] at he
      rcases hInv.coher q e he with ⟨w, hw, hwp, hws⟩
      exact ⟨w, by rw [hreg, lookA_eraseA_ne (hne q hq e he)]; exact hw,
        hwp, hws⟩
  · intro q
    rw [hstacks q]
    by_cases hq : q = p
    · subst hq
      rw [if_pos rfl]
      have h0 := hInv.pipeNodup q
      rw [hstack, List.map_cons] at h0
      exact (List.nodup_cons.1 h0).2
    · rw [if_neg hq]
      exact hInv.pipeNodup q
  · intro r w hw hnp
    have hrne : r ≠ top.rid := by
      intro heq
      rw [heq, hreg, herase] at hw
      exact Option.noConfusion hw
    rw [hreg, lookA_eraseA_ne hrne] at hw
    have hmem := hInv.onStack r w hw hnp
    rw [hstacks]
    by_cases hqp : w.pipeline = p
    · rw [if_pos hqp]
      rw [hqp, hstack, List.map_cons] at hmem
      rcases List.mem_cons.1 hmem with h1 | h1
      · exact absurd h1 hrne
      · exact h1
    · rw [if_neg hqp]
      exact hmem
  · intro q e he
    rw [hstacks q] at he
    by_cases hq : q = p
    · subst hq
      rw [if_pos rfl] at he
      have h0 := hInv.tails q
      rw [hstack, List.tail_cons] at h0
      exact h0 e (List.mem_of_mem_tail he)
    · rw [if_neg hq] at he
      exact hInv.tails q e he
  · intro r w hw
    have hrne : r ≠ top.rid := by
      intro heq
      rw [heq, hreg, herase] at hw
      exact Option.noConfusion hw
    rw [hreg, lookA_eraseA_ne hrne] at hw
    rcases hInv.trace r w hw with ⟨v₀, hv0, hvs, hev⟩
    refine ⟨v₀, hv0, hvs, ?_⟩
    rw [hlog, eventsFor_append_other r st.log (delEv top.rid)
      top.rid (eRid_delEv top.rid) (fun h => hrne h.symm), hev]
  · intro r hr
    by_cases hrr : r = top.rid
    · subst hrr
      right
      rcases hInv.trace top.rid v hl with ⟨v₀, hv0, hvs, hev⟩
      refine ⟨v₀, v.status, hv0, ?_⟩
      rw [hlog, eventsFor_append_same top.rid st.log (delEv top.rid)
        (eRid_delEv top.rid), hev]
    · rw [hreg, lookA_eraseA_ne hrr] at hr
      rcases hInv.traceGone r hr with h0 | ⟨w, s, hws, hev⟩
      · left
        rw [hlog, eventsFor_append_other r st.log (delEv top.rid)
          top.rid (eRid_delEv top.rid) (fun h => hrr h.symm)]
        exact h0
      · right
        exact ⟨w, s, hws, by
          rw [hlog, eventsFor_append_other r st.log (delEv top.rid)
            top.rid (eRid_delEv top.rid) (fun h => hrr h.symm)]
          exact hev⟩

/-- The fast path of a pause checkpoint (no higher-priority pending run)
only consumes one pause of the head entry; it preserves the invariant. -/
theorem inv_fastPath {st : MState} {p : String} {top : ActiveRun}
    {rest : List ActiveRun} {n : Nat}
    (hInv : Inv st)
    (hstack : getStack st p = top :: rest)
    (hφ : top.phase = RPhase.running (n + 1)) :
    Inv (setStack st p ({ top with phase := RPhase.running n } :: rest)) := by
  have hstacks : ∀ q, getStack (setStack st p
        ({ top with phase := RPhase.running n } :: rest)) q
      = if q = p then { top with phase := RPhase.running n } :: rest
        else getStack st q := by
    intro q
    by_cases hq : q = p
    · subst hq
      rw [if_pos rfl]
      exact getStack_setStack_self _ _ _
    · rw [if_neg hq]
      exact getStack_setStack_ne _ _ hq
  refine { regKeys := hInv.regKeys, fresh := hInv.fresh, coher := ?_,
           pipeNodup := ?_, onStack := ?_, tails := ?_,
           trace := hInv.trace, traceGone := hInv.traceGone }
  · intro q e he
    rw [hstacks q] at he
    by_cases hq : q = p
    · subst hq
      rw [if_pos rfl] at he
      rcases List.mem_cons.1 he with rfl | he'
      · rcases hInv.coher q top (by rw [hstack]; exact List.mem_cons_self _ _)
          with ⟨w, hw, hwp, hws⟩
        refine ⟨w, hw, hwp, ?_⟩
        rw [hws, hφ]
        rfl
      · exact hInv.coher q e (by rw [hstack]; exact List.mem_cons_of_mem _ he')
    · rw [if_neg hq] at he
      exact hInv.coher q e he
  · intro q
    rw [hstacks q]
    by_cases hq : q = p
    · subst hq
      rw [if_pos rfl, List.map_cons]
      have h0 := hInv.pipeNodup q
      rw [hstack, List.map_cons] at h0
      exact h0
    · rw [if_neg hq]
      exact hInv.pipeNodup q
  · intro r w hw hnp
    have hmem := hInv.onStack r w hw hnp
    rw [hstacks]
    by_cases hqp : w.pipeline = p
    · rw [if_pos hqp]
      rw [hqp, hstack, List.map_cons] at hmem
      rw [List.map_cons]
      exact hmem
    · rw [if_neg hqp]
      exact hmem
  · intro q e he
    rw [hstacks q] at he
    by_cases hq : q = p
    · subst hq
      rw [if_pos rfl, List.tail_cons] at he
      have h0 := hInv.tails q
      rw [hstack, List.tail_cons] at h0
      exact h0 e he
    · rw [if_neg hq] at he
      exact hInv.tails q e he

/-- Submitting a run preserves the invariant: the fresh id is appended
to the registry with a pending value, and exactly its insertion event is
published. -/
theorem inv_submit {st : MState} (p : String) (ex : Expid) (pr : Int)
    (d : Option Int) (k : Nat) (hInv : Inv st) :
    Inv (submitRun st p ex pr d k) := by
  have h0 : lookA st.next_rid st.registry = none :=
    (hInv.fresh _ (Nat.le_refl _)).1
  have hev0 : eventsFor st.next_rid st.log = [] :=
    (hInv.fresh _ (Nat.le_refl _)).2
  have hreg : (submitRun st p ex pr d k).registry
      = st.registry ++ [(st.next_rid, ⟨p, Status.pending, pr, ex, d⟩)] := by
    show applyEvent st.registry (insertEv st.next_rid ⟨p, Status.pending, pr, ex, d⟩) = _
    rw [applyEvent_insertEv, setA_of_lookA_none _ _ h0]
  have hlog : (submitRun st p ex pr d k).log
      = st.log ++ [insertEv st.next_rid ⟨p, Status.pending, pr, ex, d⟩] := rfl
  have hlookup_new : lookA st.next_rid (submitRun st p ex pr d k).registry
      = some ⟨p, Status.pending, pr, ex, d⟩ := by
    rw [hreg, lookA_append_of_none _ h0]
    show (if st.next_rid = st.next_rid
      then some (⟨p, Status.pending, pr, ex, d⟩ : RunValue) else none) = _
    rw [if_pos rfl]
  have hlookup_old : ∀ r, r ≠ st.next_rid →
      lookA r (submitRun st p ex pr d k).registry = lookA r st.registry := by
    intro r hne
    rw [hreg]
    cases h : lookA r st.registry with
    | some w => rw [lookA_append_left _ h]
    | none =>
      rw [lookA_append_of_none _ h]
      show (if st.next_rid = r
        then some (⟨p, Status.pending, pr, ex, d⟩ : RunValue) else none) = none
      rw [if_neg (fun hh => hne hh.symm)]
  refine { regKeys := ?_, fresh := ?_, coher := ?_, pipeNodup := hInv.pipeNodup,
           onStack := ?_, tails := hInv.tails, trace := ?_, traceGone := ?_ }
  · rw [hreg, List.map_append]
    exact nodup_append_singleton hInv.regKeys ((lookA_eq_none_iff _ _).1 h0)
  · intro r hr
    have hr' : st.next_rid + 1 ≤ r := hr
    have hrne : r ≠ st.next_rid := by
      intro heq
      rw [heq] at hr'
      exact Nat.not_succ_le_self _ hr'
    constructor
    · rw [hlookup_old r hrne]
      exact (hInv.fresh r (Nat.le_of_succ_le hr')).1
    · rw [hlog, eventsFor_append_other r st.log
        (insertEv st.next_rid ⟨p, Status.pending, pr, ex, d⟩) st.next_rid
        (eRid_insertEv _ _) (fun h => hrne h.symm)]
      exact (hInv.fresh r (Nat.le_of_succ_le hr')).2
  · intro q e he
    rcases hInv.coher q e he with ⟨w, hw, hwp, hws⟩
    have hene : e.rid ≠ st.next_rid := by
      intro heq
      rw [heq, h0] at hw
      exact Option.noConfusion hw
    exact ⟨w, by rw [hlookup_old _ hene]; exact hw, hwp, hws⟩
  · intro r w hw hnp
    by_cases hrr : r = st.next_rid
    · rw [hrr, hlookup_new] at hw
      cases hw
      exact absurd rfl hnp
    · rw [hlookup_old r hrr] at hw
      exact hInv.onStack r w hw hnp
  · intro r w hw
    by_cases hrr : r = st.next_rid
    · subst hrr
      rw [hlookup_new] at hw
      cases hw
      refine ⟨⟨p, Status.pending, pr, ex, d⟩, rfl, rfl, ?_⟩
      rw [hlog, eventsFor_append_same _ _ _ (eRid_insertEv _ _), hev0]
      rfl
    · rw [hlookup_old r hrr] at hw
      rcases hInv.trace r w hw with ⟨v₀, hv0, hvs, hev⟩
      exact ⟨v₀, hv0, hvs, by
        rw [hlog, eventsFor_append_other r st.log
          (insertEv st.next_rid ⟨p, Status.pending, pr, ex, d⟩) st.next_rid
          (eRid_insertEv _ _) (fun h => hrr h.symm)]
        exact hev⟩
  · intro r hr
    by_cases hrr : r = st.next_rid
    · rw [hrr, hlookup_new] at hr
      exact absurd hr (by simp)
    · rw [hlookup_old r hrr] at hr
      rcases hInv.traceGone r hr with h0' | ⟨w, s, hws, hev⟩
      · left
        rw [hlog, eventsFor_append_other r st.log
          (insertEv st.next_rid ⟨p, Status.pending, pr, ex, d⟩) st.next_rid
          (eRid_insertEv _ _) (fun h => hrr h.symm)]
        exact h0'
      · right
        exact ⟨w, s, hws, by
          rw [hlog, eventsFor_append_other r st.log
            (insertEv st.next_rid ⟨p, Status.pending, pr, ex, d⟩) st.next_rid
            (eRid_insertEv _ _) (fun h => hrr h.symm)]
          exact hev⟩

/-- Cancelling a pending run (which is never on a stack) preserves the
invariant: its registry entry is erased and its deletion published. -/
theorem inv_cancelPending {st : MState} {rid : Nat} {v : RunValue}
    (hInv : Inv st) (hl : lookA rid st.registry = some v)
    (hpend : v.status = Status.pending) :
    Inv (emit st (delEv rid)) := by
  have hreg : (emit st (delEv rid)).registry = eraseA rid st.registry := rfl
  have hlog : (emit st (delEv rid)).log = st.log ++ [delEv rid] := rfl
  have hstackne : ∀ q, ∀ e ∈ getStack st q, e.rid ≠ rid := by
    intro q e he hre
    rcases hInv.coher q e he with ⟨w, hw, hwp, hws⟩
    rw [hre, hl] at hw
    cases hw
    exact phaseStatus_ne_pending e.phase (hws ▸ hpend)
  have herase : lookA rid (eraseA rid st.registry) = none :=
    lookA_eraseA_self _ _ hInv.regKeys
  refine { regKeys := ?_, fresh := ?_, coher := ?_, pipeNodup := hInv.pipeNodup,
           onStack := ?_, tails := hInv.tails, trace := ?_, traceGone := ?_ }
  · rw [hreg]
    exact List.Nodup.sublist (keys_eraseA_sublist _ _) hInv.regKeys
  · intro r hr
    have hr' : st.next_rid ≤ r := hr
    have hrne : r ≠ rid := by
      intro heq
      rw [heq] at hr'
      rw [(hInv.fresh rid hr').1] at hl
      exact Option.noConfusion hl
    constructor
    · rw [hreg, lookA_eraseA_ne hrne]
      exact (hInv.fresh r hr').1
    · rw [hlog, eventsFor_append_other r st.log (delEv rid) rid
        (eRid_delEv rid) (fun h => hrne h.symm)]
      exact (hInv.fresh r hr').2
  · intro q e he
    rcases hInv.coher q e he with ⟨w, hw, hwp, hws⟩
    exact ⟨w, by rw [hreg, lookA_eraseA_ne (hstackne q e he)]; exact hw,
      hwp, hws⟩
  · intro r w hw hnp
    have hrne : r ≠ rid := by
      intro heq
      rw [heq, hreg, herase] at hw
      exact Option.noConfusion hw
    rw [hreg, lookA_eraseA_ne hrne] at hw
    exact hInv.onStack r w hw hnp
  · intro r w hw
    have hrne : r ≠ rid := by
      intro heq
      rw [heq, hreg, herase] at hw
      exact Option.noConfusion hw
    rw [hreg, lookA_eraseA_ne hrne] at hw
    rcases hInv.trace r w hw with ⟨v₀, hv0, hvs, hev⟩
    refine ⟨v₀, hv0, hvs, ?_⟩
    rw [hlog, eventsFor_append_other r st.log (delEv rid) rid
      (eRid_delEv rid) (fun h => hrne h.symm), hev]
  · intro r hr
    by_cases hrr : r = rid
    · subst hrr
      right
      rcases hInv.trace r v hl with ⟨v₀, hv0, hvs, hev⟩
      refine ⟨v₀, v.status, hv0, ?_⟩
      rw [hlog, eventsFor_append_same r st.log (delEv r) (eRid_delEv r), hev]
    · rw [hreg, lookA_eraseA_ne hrr] at hr
      rcases hInv.traceGone r hr with h0 | ⟨w, s, hws, hev⟩
      · left
        rw [hlog, eventsFor_append_other r st.log (delEv rid) rid
          (eRid_delEv rid) (fun h => hrr h.symm)]
        exact h0
      · right
        exact ⟨w, s, hws, by
          rw [hlog, eventsFor_append_other r st.log (delEv rid) rid
            (eRid_delEv rid) (fun h => hrr h.symm)]
          exact hev⟩

/-- Setting cooperative termination flags changes neither ids, phases,
registry nor log; the invariant is preserved. -/
theorem inv_cancelActive {st : MState} (rid : Nat) (hInv : Inv st) :
    Inv { st with pipelines := setFlags rid st.pipelines } := by
  have hfmap : ∀ (a : ActiveRun),
      ((if a.rid = rid then { a with cancelReq := true } else a) :
        ActiveRun).rid = a.rid ∧
      ((if a.rid = rid then { a with cancelReq := true } else a) :
        ActiveRun).phase = a.phase := by
    intro a
    by_cases h : a.rid = rid
    · rw [if_pos h]
      exact ⟨rfl, rfl⟩
    · rw [if_neg h]
      exact ⟨rfl, rfl⟩
  have hstacks : ∀ q, getStack { st with pipelines := setFlags rid st.pipelines } q
      = (getStack st q).map
          (fun a => if a.rid = rid then { a with cancelReq := true } else a) := by
    intro q
    unfold getStack
    unfold setFlags
    rw [lookA_map_snd]
    cases h : lookA q st.pipelines with
    | none => rfl
    | some s => rfl
  have hrids : ∀ (l : List ActiveRun),
      (l.map (fun a => if a.rid = rid then { a with cancelReq := true } else a)).map
        ActiveRun.rid = l.map ActiveRun.rid := by
    intro l
    induction l with
    | nil => rfl
    | cons a t ih =>
      simp only [List.map_cons]
      rw [ih]
      rw [show ((if a.rid = rid then { a with cancelReq := true } else a) :
        ActiveRun).rid = a.rid from (hfmap a).1]
  refine { regKeys := hInv.regKeys, fresh := hInv.fresh, coher := ?_,
           pipeNodup := ?_, onStack := ?_, tails := ?_,
           trace := hInv.trace, traceGone := hInv.traceGone }
  · intro q e he
    rw [hstacks q] at he
    rcases List.mem_map.1 he with ⟨a, ha, rfl⟩
    rcases hInv.coher q a ha with ⟨w, hw, hwp, hws⟩
    refine ⟨w, ?_, hwp, ?_⟩
    · rw [(hfmap a).1]
      exact hw
    · rw [(hfmap a).2]
      exact hws
  · intro q
    rw [hstacks q, hrids]
    exact hInv.pipeNodup q
  · intro r w hw hnp
    have hmem := hInv.onStack r w hw hnp
    rw [hstacks, hrids]
    exact hmem
  · intro q e he
    rw [hstacks q] at he
    cases l0 : getStack st q with
    | nil =>
      rw [l0] at he
      exact absurd he (List.not_mem_nil _)
    | cons a t =>
      rw [l0] at he
      rw [List.map_cons, List.tail_cons] at he
      rcases List.mem_map.1 he with ⟨b, hb, rfl⟩
      have h0 := hInv.tails q
      rw [l0, List.tail_cons] at h0
      rcases h0 b hb with ⟨k, hk⟩
      exact ⟨k, by rw [(hfmap b).2]; exact hk⟩

/-- Advancing the clock preserves the invariant. -/
theorem inv_advanceTime {st : MState} (t : Int) (hInv : Inv st) :
    Inv { st with now := t } :=
  { regKeys := hInv.regKeys, fresh := hInv.fresh, coher := hInv.coher,
    pipeNodup := hInv.pipeNodup, onStack := hInv.onStack,
    tails := hInv.tails, trace := hInv.trace, traceGone := hInv.traceGone }

/-- One pipeline-manager step preserves the invariant. -/
theorem inv_tick (st : MState) (p : String) (hInv : Inv st) : Inv (tick st p) := by
  unfold tick
  split
  · rename_i hstack
    split
    · exact hInv
    · rename_i rv hsel
      obtain ⟨rid, v⟩ := rv
      rcases selectBest_spec hsel with ⟨hmem, helig⟩
      have hl := lookA_of_mem hInv.regKeys hmem
      rcases eligible_true helig with ⟨hp, hpend⟩
      refine inv_startRun hInv hl hp hpend ?_
      rw [hstack]
      intro e he
      exact absurd he (List.not_mem_nil _)
  · rename_i top rest hstack
    split
    · exact inv_finishTop hInv hstack
    · split
      · rename_i hφ
        exact inv_advanceTop hInv hstack (by rw [hφ]; rfl)
      · rename_i hφ
        exact inv_advanceTop hInv hstack (by rw [hφ]; rfl)
      · rename_i hφ
        exact inv_advanceTop hInv hstack (by rw [hφ]; rfl)
      · rename_i m hφ
        split
        · rename_i rv hsel
          obtain ⟨rid, v⟩ := rv
          rcases selectBest_spec hsel with ⟨hmem, helig⟩
          have hl := lookA_of_mem hInv.regKeys hmem
          rcases eligible_true helig with ⟨hp, hpend⟩
          refine inv_startRun hInv hl hp hpend ?_
          rw [hstack]
          intro e he
          rcases List.mem_cons.1 he with rfl | he'
          · exact ⟨m, hφ⟩
          · exact hInv.tails p e (by rw [hstack, List.tail_cons]; exact he')
        · exact inv_fastPath hInv hstack hφ
      · rename_i hφ
        exact inv_advanceTop hInv hstack (by rw [hφ]; rfl)
      · rename_i hφ
        exact inv_advanceTop hInv hstack (by rw [hφ]; rfl)
      · exact inv_finishTop hInv hstack

/-- Every step of the system preserves the invariant. -/
theorem inv_doStep (st : MState) (a : Act) (hInv : Inv st) :
    Inv (doStep st a) := by
  cases a with
  | submit p e pr d k => exact inv_submit p e pr d k hInv
  | cancel rid =>
    cases hl : lookA rid st.registry with
    | none =>
      rw [doStep_cancel_none st rid hl]
      exact hInv
    | some v =>
      by_cases hp : v.status = Status.pending
      · rw [doStep_cancel_pending st rid v hl hp]
        exact inv_cancelPending hInv hl hp
      · rw [doStep_cancel_active st rid v hl hp]
        exact inv_cancelActive rid hInv
  | tick p => exact inv_tick st p hInv
  | advance t => exact inv_advanceTime t hInv

/-- The freshly constructed scheduler satisfies the invariant. -/
theorem inv_initState (n : Nat) : Inv (initState n) := by
  refine { regKeys := List.nodup_nil, fresh := ?_, coher := ?_,
           pipeNodup := ?_, onStack := ?_, tails := ?_, trace := ?_,
           traceGone := ?_ }
  · intro r _
    exact ⟨rfl, rfl⟩
  · intro q e he
    exact absurd he (List.not_mem_nil _)
  · intro q
    exact List.nodup_nil
  · intro r w hw _
    exact Option.noConfusion hw
  · intro q e he
    exact absurd he (List.not_mem_nil _)
  · intro r w hw
    exact Option.noConfusion hw
  · intro r _
    left
    rfl

/-- Every reachable state satisfies the invariant. -/
theorem inv_execAll : ∀ (acts : List Act) (st : MState), Inv st →
    Inv (execAll st acts)
  | [], _, h => h
  | a :: acts, st, h => inv_execAll acts (doStep st a) (inv_doStep st a h)

/-- C5: for every reachable point of every execution and every run id,
the published events of that run are: nothing, or an insertion carrying
status `pending` followed by a contiguous prefix of the status updates
`preparing, prepare_done, running, run_done, analyzing, analyze_done`
(no status skipped, none repeated), optionally closed by the run's
deletion, after which nothing more is published for it.  Early
truncation (here caused by cancellation) goes directly to the
deletion. -/
theorem lifecycle_status_sequence (n : Nat) (acts : List Act) (rid : Nat) :
    TraceShape rid (execAll (initState n) acts).log := by
  have hInv := inv_execAll acts (initState n) (inv_initState n)
  cases hl : lookA rid (execAll (initState n) acts).registry with
  | none =>
    rcases hInv.traceGone rid hl with h0 | ⟨v, s, hvs, hev⟩
    · exact Or.inl h0
    · exact Or.inr ⟨v, s, hvs, Or.inr hev⟩
  | some w =>
    rcases hInv.trace rid w hl with ⟨v₀, hv0, _, hev⟩
    exact Or.inr ⟨v₀, w.status, hv0, Or.inl hev⟩

/-- C3 amended: in every reachable state, every run with published
status `running` is on its pipeline's execution stack, and every stack
entry below the head is suspended at a pause checkpoint — so at most one
run per pipeline is actively executing, but a preempted run retains
status `running` alongside its preemptor. -/
theorem running_stack_discipline (n : Nat) (acts : List Act) :
    StackDiscipline (execAll (initState n) acts) := by
  have hInv := inv_execAll acts (initState n) (inv_initState n)
  constructor
  · intro rid v hl hrun
    refine hInv.onStack rid v hl ?_
    intro h
    rw [hrun] at h
    exact Status.noConfusion h
  · exact hInv.tails

/-- Witness for `lifecycle_status_sequence` at the scenario A execution. -/
theorem lifecycle_status_sequence_witness :
    TraceShape 0 (execAll (initState 0) (scnA exEmpty 0)).log :=
  lifecycle_status_sequence 0 (scnA exEmpty 0) 0

/-- Witness for `running_stack_discipline` at the scenario B execution. -/
theorem running_stack_discipline_witness :
    StackDiscipline (execAll (initState 0) (scnB exBg exEmpty 0)) :=
  running_stack_discipline 0 (scnB exBg exEmpty 0)

end ArtiqSched











